import Mathlib

/-!
Verification development for the NS-Util dynamic preset store
(`src/nodes/FlexPreset.py` and `src/nodes/prompt_list_node.py`).

The Python code is shallowly embedded: insertion-ordered mappings
(`OrderedDict` / YAML mappings) become association lists, file contents
become lists of text lines, and the per-call state that the code consults
(the singleton's `_panel_order` list and `_workflow_loading` flag, and the
on-disk snapshot a function reads) become explicit parameters.
-/

namespace NSUtil

/-- Association-list lookup, modelling Python dict access `d[k]`
(first matching key wins; mappings read from YAML have unique keys). -/
def assoc? : List (String × α) → String → Option α
  | [], _ => none
  | kv :: rest, k => if kv.1 = k then some kv.2 else assoc? rest k

/-- Membership test on a list of strings, modelling Python `x in xs`. -/
def memStr (k : String) : List String → Bool
  | [] => false
  | x :: xs => x = k || memStr k xs

/-- One field of a preset panel as read from YAML: the mapping under a field
name, with its optional `type` and `value` keys.  `value_data.get('type',
'string')` and `value_data.get('value', '')` are modelled by `fieldType` and
`fieldValue`. -/
structure FieldData where
  type? : Option String
  value? : Option String
deriving DecidableEq

/-- Declared type of a field: `value_data.get('type', 'string')`. -/
def fieldType (f : FieldData) : String := f.type?.getD "string"

/-- Stored value of a field: `value_data.get('value', '')`. -/
def fieldValue (f : FieldData) : String := f.value?.getD ""

/-- A panel: the ordered mapping under a preset's `values` key.  An entry
whose YAML value is not a mapping is `none` (the code skips such entries via
`isinstance(value_data, dict)`). -/
abbrev Panel := List (String × Option FieldData)

/-- The YAML value sitting under a top-level preset name: either a
non-mapping scalar, or a mapping whose optional `values` key holds a panel.
(The code only ever reads and writes the `values` key of this mapping.) -/
inductive PresetVal where
  | scalar : PresetVal
  | node : Option Panel → PresetVal
deriving DecidableEq

/-- A parsed document: the ordered top-level YAML mapping,
preset name to preset value. -/
abbrev Document := List (String × PresetVal)

/-- The snapshot of one document file that a single read observes:
the file may be absent, may fail to parse, or parses to a document. -/
inductive FileState where
  | missing : FileState
  | corrupt : FileState
  | ok : Document → FileState
deriving DecidableEq

/-- Panel of `title` in `d`, following `_get_values_from_yaml` and the body
of `dynamic_output_types`: `data[title].get('values', {})` when
`title in data and isinstance(data[title], dict)`, else the empty mapping. -/
def panelOf (d : Document) (title : String) : Panel :=
  match assoc? d title with
  | some (.node (some p)) => p
  | some (.node none) => []
  | _ => []

/-- Keys of a panel in on-disk order (`values.keys()`). -/
def keysOf (p : Panel) : List String := p.map (·.1)

/-- The `title_to_use` computation: `input_preset_name if input_preset_name
else select_preset`. -/
def titleToUse (select_preset input_preset_name : String) : String :=
  if input_preset_name ≠ "" then input_preset_name else select_preset

/-- The second phase of the ordering loop: `for key in values.keys(): if key
not in keys_to_process: keys_to_process.append(key)`. -/
def addMissingKeys (acc : List String) (ks : List String) : List String :=
  ks.foldl (fun a k => if memStr k a then a else a ++ [k]) acc

/-- The processing order built in `dynamic_output_types` (lines 228-241):
panel-order entries that exist in the panel, then panel keys not already
included; plain panel order when the tracker is empty. -/
def keysToProcessSchema (panelOrder : List String) (values : Panel) : List String :=
  if panelOrder ≠ [] then
    addMissingKeys (panelOrder.filter (fun k => memStr k (keysOf values))) (keysOf values)
  else
    keysOf values

/-- The processing order built in `run` (lines 790-805); the code duplicates
the logic of `dynamic_output_types` verbatim. -/
def keysToProcessRun (panelOrder : List String) (values : Panel) : List String :=
  if panelOrder ≠ [] then
    addMissingKeys (panelOrder.filter (fun k => memStr k (keysOf values))) (keysOf values)
  else
    keysOf values

/-- Translation from a declared field type to a ComfyUI output type:
`int` to `INT`, `float` to `FLOAT`, anything else to `STRING`. -/
def outTypeOf (t : String) : String :=
  if t = "int" then "INT" else if t = "float" then "FLOAT" else "STRING"

/-- The schema-building loop of `dynamic_output_types` (lines 243-261): each
key of `ks` found in `values` with a mapping value contributes an output type
and the output name `<key>_<declared type>`; other keys contribute nothing. -/
def schemaEntriesCore (values : Panel) : List String → List String × List String
  | [] => ([], [])
  | key :: ks =>
      match assoc? values key with
      | some (some f) =>
          let rest := schemaEntriesCore values ks
          (outTypeOf (fieldType f) :: rest.1, (key ++ "_" ++ fieldType f) :: rest.2)
      | _ => schemaEntriesCore values ks

/-- Shallow embedding of `NS_FlexPreset.dynamic_output_types`.  The instance
state it consults (`_panel_order`, `_workflow_loading`) and the file snapshot
it reads are explicit arguments. -/
def dynamic_output_types (select_yaml select_preset input_preset_name : String)
    (fs : FileState) (panelOrder : List String) (workflowLoading : Bool) :
    List String × List String :=
  let title := titleToUse select_preset input_preset_name
  if title = "" ∨ select_yaml = "" then
    if workflowLoading then ([], [])
    else (["STRING"], ["output"])
  else
    match fs with
    | .missing => (["STRING"], ["output"])
    | .corrupt => (["STRING"], ["output"])
    | .ok d =>
        let values := panelOf d title
        let res := schemaEntriesCore values (keysToProcessSchema panelOrder values)
        if res.1 = [] then (["STRING"], ["output"]) else res

/-! Model of CPython numeric conversion from strings, as used by
`int(value)` and `float(value)` in `run`: optional surrounding whitespace,
optional sign, digit runs that may contain single underscores between
digits; `float` additionally allows a fractional part, an exponent, and the
special words inf / infinity / nan (case-insensitive). -/

/-- Whitespace characters stripped by Python numeric conversion
(space, tab, newline, carriage return, vertical tab, form feed). -/
def isPySpace (c : Char) : Bool :=
  c = ' ' || c = '\t' || c = '\n' || c = '\r' || c = Char.ofNat 11 || c = Char.ofNat 12

/-- Strip leading and trailing Python whitespace from a character list. -/
def stripPyWs (cs : List Char) : List Char :=
  ((cs.dropWhile isPySpace).reverse.dropWhile isPySpace).reverse

/-- Numeric value of a digit character. -/
def digitVal (c : Char) : Nat := c.toNat - 48

/-- Continue a digit run that may contain single underscores between digits,
accumulating its value; fails on a misplaced underscore or a foreign
character. -/
def duGo (acc : Nat) : List Char → Option Nat
  | [] => some acc
  | c :: cs =>
      if c.isDigit then duGo (acc * 10 + digitVal c) cs
      else if c = '_' then
        match cs with
        | d :: cs2 => if d.isDigit then duGo (acc * 10 + digitVal d) cs2 else none
        | [] => none
      else none

/-- Parse a full nonempty digit run (with optional grouping underscores),
consuming the whole list. -/
def duParse : List Char → Option Nat
  | [] => none
  | c :: cs => if c.isDigit then duGo (digitVal c) cs else none

/-- Model of Python `int(s)` on a string: strip whitespace, optional sign,
then a digit run covering the rest of the string. -/
def pyIntOfString (s : String) : Option Int :=
  match stripPyWs s.data with
  | [] => none
  | c :: cs =>
      if c = '-' then (duParse cs).map (fun n => -(n : Int))
      else if c = '+' then (duParse cs).map (fun n => (n : Int))
      else (duParse (c :: cs)).map (fun n => (n : Int))

/-- Result of Python `float(s)`: a finite rational approximation of the
parsed literal, a signed infinity, or nan. -/
inductive PyFloat where
  | finite : ℚ → PyFloat
  | inf : Bool → PyFloat
  | nan : PyFloat
deriving DecidableEq

/-- The float value zero, used for padding FLOAT outputs. -/
def PyFloat.zero : PyFloat := .finite 0

/-- Negate a float result (applied for a leading minus sign). -/
def PyFloat.neg : PyFloat → PyFloat
  | .finite q => .finite (-q)
  | .inf b => .inf (!b)
  | .nan => .nan

/-- Scan a maximal digit run with grouping underscores, returning its value,
its digit count and the unconsumed rest; fails on a misplaced underscore. -/
def duScan (acc cnt : Nat) : List Char → Option (Nat × Nat × List Char)
  | [] => some (acc, cnt, [])
  | c :: cs =>
      if c.isDigit then duScan (acc * 10 + digitVal c) (cnt + 1) cs
      else if c = '_' && cnt ≠ 0 then
        match cs with
        | d :: cs2 => if d.isDigit then duScan (acc * 10 + digitVal d) (cnt + 1) cs2 else none
        | [] => none
      else some (acc, cnt, c :: cs)

/-- Parse the optional exponent part of a float literal and apply it; the
rest of the string must be consumed entirely. -/
def pyFloatExp (mant : ℚ) : List Char → Option ℚ
  | [] => some mant
  | c :: cs =>
      if c = 'e' || c = 'E' then
        let (neg, cs2) :=
          match cs with
          | s :: cs2 => if s = '-' then (true, cs2) else if s = '+' then (false, cs2) else (false, cs)
          | [] => (false, cs)
        match duScan 0 0 cs2 with
        | some (e, ec, []) =>
            if ec = 0 then none
            else some (if neg then mant / ((10 : ℚ) ^ e) else mant * ((10 : ℚ) ^ e))
        | _ => none
      else none

/-- Parse the numeric body of a float literal (after sign stripping):
`digits [. digits] [exp]` or `. digits [exp]`, with grouping underscores. -/
def pyFloatNumeric (cs : List Char) : Option ℚ :=
  match duScan 0 0 cs with
  | none => none
  | some (ip, ic, rest) =>
      match rest with
      | '.' :: rest2 =>
          match duScan 0 0 rest2 with
          | none => none
          | some (fp, fc, rest3) =>
              if ic = 0 && fc = 0 then none
              else pyFloatExp ((ip : ℚ) + (fp : ℚ) / ((10 : ℚ) ^ fc)) rest3
      | _ => if ic = 0 then none else pyFloatExp (ip : ℚ) rest

/-- Parse a float body: a numeric literal, else inf / infinity / nan
(case-insensitive). -/
def pyFloatBody (cs : List Char) : Option PyFloat :=
  match pyFloatNumeric cs with
  | some q => some (.finite q)
  | none =>
      let low := cs.map Char.toLower
      if low = "inf".data || low = "infinity".data then some (.inf false)
      else if low = "nan".data then some .nan
      else none

/-- Model of Python `float(s)` on a string. -/
def pyFloatOfString (s : String) : Option PyFloat :=
  match stripPyWs s.data with
  | [] => none
  | c :: cs =>
      if c = '-' then (pyFloatBody cs).map PyFloat.neg
      else if c = '+' then pyFloatBody cs
      else pyFloatBody (c :: cs)

/-! The evaluation entry point `NS_FlexPreset.run`. -/

/-- A value of the output tuple: the result of `int(value)`,
`float(value)` or `str(value)`. -/
inductive OutVal where
  | i : Int → OutVal
  | f : PyFloat → OutVal
  | s : String → OutVal
deriving DecidableEq

/-- The conversion applied in `run` according to the declared type:
`int(value)` for int, `float(value)` for float, `str(value)` otherwise. -/
def convertValue (t v : String) : Option OutVal :=
  if t = "int" then (pyIntOfString v).map .i
  else if t = "float" then (pyFloatOfString v).map .f
  else some (.s v)

/-- Single-quote character as a string (ASCII 39). -/
def squote : String := (Char.ofNat 39).toString

/-- The error message raised by `run` on a failed conversion:
`NS-FlexPreset: Cannot convert <value> to <type> for key <key>`
with the value and key single-quoted. -/
def runErrMsg (v t k : String) : String :=
  "NS-FlexPreset: Cannot convert " ++ squote ++ v ++ squote ++ " to " ++ t
    ++ " for key " ++ squote ++ k ++ squote

/-- The value-building loop of `run` (lines 807-827): walk the processing
order, convert each mapping-valued field, and raise on the first conversion
failure. -/
def buildValues (values : Panel) : List String → Except String (List OutVal)
  | [] => .ok []
  | k :: ks =>
      match assoc? values k with
      | some (some f) =>
          match convertValue (fieldType f) (fieldValue f) with
          | some ov => (buildValues values ks).map (ov :: ·)
          | none => .error (runErrMsg (fieldValue f) (fieldType f) k)
      | _ => buildValues values ks

/-- The raw output-value list of `run` before arity reconciliation: empty
when the values mapping is empty (`if values:`), else the converted values
in processing order. -/
def runRaw (values : Panel) (panelOrder : List String) : Except String (List OutVal) :=
  if values ≠ [] then buildValues values (keysToProcessRun panelOrder values)
  else .ok []

/-- Zero value used to pad a missing output position:
0 for INT, 0.0 for FLOAT, the empty string otherwise. -/
def zeroOf (t : String) : OutVal :=
  if t = "INT" then .i 0 else if t = "FLOAT" then .f PyFloat.zero else .s ""

/-- Arity reconciliation of `run` (lines 833-850): pad a short value list
with the zero of each missing position's declared output type, trim a long
one to the declared count. -/
def reconcile (outs : List String) (raw : List OutVal) : List OutVal :=
  if raw.length < outs.length then
    raw ++ ((List.range outs.length).drop raw.length).map (fun i => zeroOf (outs.getD i "STRING"))
  else if raw.length > outs.length then raw.take outs.length
  else raw

/-- The panel observed by `run` through `_get_values_from_yaml`:
empty for an absent or unparsable file, else the selected panel. -/
def runValuesPanel (valuesFs : FileState) (title : String) : Panel :=
  match valuesFs with
  | .ok d => panelOf d title
  | _ => []

/-- Shallow embedding of `NS_FlexPreset.run`.  `valuesFs` is the file
snapshot read by `_get_values_from_yaml`, `schemaFs` the snapshot read by
the inner `dynamic_output_types` call (the two reads are separate in the
code and may observe different file contents).  The `_ensure_title_exists`
side effect does not alter what either read can observe and is not
modelled.  A conversion failure is the raised `ValueError`. -/
def run (select_yaml select_preset input_preset_name : String)
    (valuesFs schemaFs : FileState) (panelOrder : List String)
    (workflowLoading : Bool) : Except String (List OutVal) :=
  let title := titleToUse select_preset input_preset_name
  let values : Panel := runValuesPanel valuesFs title
  let outs := (dynamic_output_types select_yaml select_preset input_preset_name
      schemaFs panelOrder workflowLoading).1
  match runRaw values panelOrder with
  | .error e => .error e
  | .ok raw =>
      let raw := if raw = [] then [.s ""] else raw
      .ok (reconcile outs raw)

/-! Type validation (`TYPE_REGEX` and `_validate_value_type`). -/

/-- Language of the core of the int regex `-?[0-9]+`:
an optional minus sign followed by one or more digits. -/
def matchIntCore (cs : List Char) : Bool :=
  match cs with
  | [] => false
  | c :: rest =>
      if c = '-' then rest ≠ [] && rest.all (·.isDigit)
      else (c :: rest).all (·.isDigit)

/-- Language of the body of the float regex `[0-9]*\.?[0-9]+`
(after the optional minus sign): digits, an optional dot, then at least one
digit when the dot is present. -/
def matchFloatBody (cs : List Char) : Bool :=
  match cs.dropWhile (·.isDigit) with
  | [] => cs ≠ []
  | r :: b => r = '.' && b ≠ [] && b.all (·.isDigit)

/-- Language of the core of the float regex `-?[0-9]*\.?[0-9]+`. -/
def matchFloatCore (cs : List Char) : Bool :=
  match cs with
  | [] => false
  | c :: rest =>
      if c = '-' then matchFloatBody rest
      else matchFloatBody (c :: rest)

/-- Python `re.match` with a `$`-anchored pattern: the whole string matches
the core, or everything before a single trailing newline does (`$` also
matches just before a newline at the end of the string). -/
def reMatchEnd (core : List Char → Bool) (s : String) : Bool :=
  core s.data ||
    (match s.data.getLast? with
     | some c => c = '\n' && core s.data.dropLast
     | none => false)

/-- Shallow embedding of `NS_FlexPreset._validate_value_type`: look the type
up in `TYPE_REGEX` (unknown types fail) and match the value against the
type's regex; the `string` regex `.*` matches every value. -/
def validate_value_type (t v : String) : Bool :=
  if t = "int" then reMatchEnd matchIntCore v
  else if t = "float" then reMatchEnd matchFloatCore v
  else if t = "string" then true
  else false

/-! Mutation API (`_update_key_name`, `_add_value` and their routes). -/

/-- Insertion into an insertion-ordered mapping (`OrderedDict.__setitem__`):
an existing key keeps its position and gets the new value,
a new key is appended at the end. -/
def odInsert (p : List (String × α)) (k : String) (v : α) : List (String × α) :=
  if memStr k (p.map (·.1)) then p.map (fun kv => if kv.1 = k then (k, v) else kv)
  else p ++ [(k, v)]

/-- Replace the value under an existing top-level key of a document,
appending when absent (`data[title] = ...`). -/
def docSet (d : Document) (title : String) (v : PresetVal) : Document :=
  if memStr title (d.map (·.1)) then d.map (fun kv => if kv.1 = title then (title, v) else kv)
  else d ++ [(title, v)]

/-- The panel rebuild inside `_update_key_name` (lines 736-744): copy all
entries in order into a fresh ordered mapping, writing the entry for `old`
under `new` instead. -/
def renamePanel (p : Panel) (old new : String) : Panel :=
  p.foldl (fun acc kv => if kv.1 = old then odInsert acc new kv.2 else odInsert acc kv.1 kv.2) []

/-- Shallow embedding of `NS_FlexPreset._update_key_name`: `none` models a
`False` return (no save happened), `some d` the document that was saved.
A missing file and an empty new key fail before reading; a parse failure
and a preset that is not a mapping with a `values` mapping raise into the
handler and fail; `old = new`, a missing `values` key, and an absent old
key fall through to `return False`. -/
def update_key_name (fs : FileState) (title old new : String) : Option Document :=
  match fs with
  | .missing => none
  | .corrupt => none
  | .ok d =>
      if new = "" then none
      else
        match assoc? d title with
        | some (.node (some p)) =>
            if memStr old (keysOf p) && old ≠ new then
              some (docSet d title (.node (some (renamePanel p old new))))
            else none
        | _ => none

/-- Replace the first occurrence of `old` by `new`
(`idx = list.index(old); list[idx] = new`). -/
def replaceFirst : List String → String → String → List String
  | [], _, _ => []
  | x :: xs, old, new => if x = old then new :: xs else x :: replaceFirst xs old new

/-- The Panel Order Tracker update performed by the `update_key` route
(lines 547-553) before the file rename is even attempted: when the request
carries a non-empty `panel_order` and the tracker contains `old`, the
tracker is replaced wholesale by the payload; otherwise, when the tracker
contains `old`, its first occurrence is overwritten by `new`. -/
def update_key_route_tracker (payload : Option (List String)) (tracker : List String)
    (old new : String) : List String :=
  match payload with
  | some po =>
      if po ≠ [] && memStr old tracker then po
      else if memStr old tracker then replaceFirst tracker old new
      else tracker
  | none => if memStr old tracker then replaceFirst tracker old new else tracker

/-- Shallow embedding of `NS_FlexPreset._add_value`: `none` models a `False`
return, `some d` the saved document.  A parse failure raises and fails; a
preset whose YAML value is not a mapping makes `OrderedDict(data[title])`
raise and fails; a missing file starts from the empty document; a missing
preset or missing `values` key is created; the field is written with an
ordered-mapping insert (position preserved when the key exists, appended
otherwise). -/
def add_value_go (d : Document) (title key ktype kval : String) : Option Document :=
  let fld : Option FieldData := some ⟨some ktype, some kval⟩
  match assoc? d title with
  | none =>
      some (d ++ [(title, .node (some (odInsert [] key fld)))])
  | some .scalar => none
  | some (.node vo) =>
      some (docSet d title (.node (some (odInsert (vo.getD []) key fld))))

/-- Dispatch of `_add_value` on the state of the file: a parse failure
raises and returns `False`; a missing file starts from the empty document. -/
def add_value (fs : FileState) (title key ktype kval : String) : Option Document :=
  match fs with
  | .corrupt => none
  | .missing => add_value_go [] title key ktype kval
  | .ok d => add_value_go d title key ktype kval

/-- The `update_value` route (lines 444-471): validation is only a logged
warning; the write proceeds regardless.  Returns (warning was printed,
result of the write). -/
def update_value_route (fs : FileState) (title key ktype kval : String) :
    Bool × Option Document :=
  (!(validate_value_type ktype kval), add_value fs title key ktype kval)

/-! Document codec.  `_save_yaml` in FlexPreset dumps with an
order-preserving dumper and `sort_keys=False`; on the plain-scalar block
subset the dump of a document `title -> values -> field -> (type, value)`
is the indented line sequence modelled by `encodeDocLines`, and loading
with the order-preserving loader is modelled by `decodeDocLines` (comment
and blank lines are skipped; an empty stream loads as the empty mapping,
matching `yaml.load(...) or \x7b\x7d`).  `_save_yaml` in the prompt-list
node dumps with `sort_keys=True`, modelled by `encodePLLines`. -/

/-- Characters of a plain identifier-like scalar. -/
def identChar (c : Char) : Bool := c.isAlphanum || c = '_'

/-- Words the YAML resolver would read back as a non-string scalar; a plain
scalar must avoid them to round-trip unquoted. -/
def reservedScalars : List String :=
  ["true", "false", "yes", "no", "on", "off", "null", "none", "nan", "inf", "infinity", "y", "n"]

/-- A scalar the dumper emits unquoted and the loader reads back as the same
string: nonempty, letter or underscore first, identifier characters only,
and not a reserved word (case-insensitive). -/
def plainScalar (s : String) : Bool :=
  match s.data with
  | [] => false
  | c :: cs =>
      (c.isAlpha || c = '_') && (c :: cs).all identChar &&
        !(memStr (String.mk ((c :: cs).map Char.toLower)) reservedScalars)

/-- Lines dumped for one field: the key line at indent 4 and the `type` and
`value` lines at indent 6 (fields are saved as
`OrderedDict([("type", t), ("value", v)])`). -/
def encodeFieldLines (kf : String × Option FieldData) : List String :=
  match kf.2 with
  | some f => ["    " ++ kf.1 ++ ":", "      type: " ++ fieldType f, "      value: " ++ fieldValue f]
  | none => []

/-- Lines dumped for one preset: the title line, the `values:` line, then
the field lines in panel order. -/
def encodePresetLines (tp : String × PresetVal) : List String :=
  match tp.2 with
  | .node (some p) => (tp.1 ++ ":") :: "  values:" :: (p.map encodeFieldLines).flatten
  | _ => [tp.1 ++ ":"]

/-- Lines dumped for a whole document, preset order preserved. -/
def encodeDocLines (d : Document) : List String := (d.map encodePresetLines).flatten

/-- Drop an expected exact prefix from a character list. -/
def dropPre : List Char → List Char → Option (List Char)
  | [], cs => some cs
  | p :: ps, c :: cs => if c = p then dropPre ps cs else none
  | _ :: _, [] => none

/-- Parse a top-level mapping line `name:` into its name. -/
def parseTitleLine (l : String) : Option String :=
  let sp := l.data.span identChar
  if sp.1 ≠ [] && sp.2 = [':'] then some (String.mk sp.1) else none

/-- Parse a field-key line `␣␣␣␣name:` into its name. -/
def parseKeyLine (l : String) : Option String :=
  match dropPre "    ".data l.data with
  | some rest =>
      let sp := rest.span identChar
      if sp.1 ≠ [] && sp.2 = [':'] then some (String.mk sp.1) else none
  | none => none

/-- Parse a `␣␣␣␣␣␣type: t` line into `t`. -/
def parseTypeLine (l : String) : Option String :=
  match dropPre "      type: ".data l.data with
  | some (c :: cs) => some (String.mk (c :: cs))
  | _ => none

/-- Parse a `␣␣␣␣␣␣value: v` line into `v`. -/
def parseValueLine (l : String) : Option String :=
  match dropPre "      value: ".data l.data with
  | some (c :: cs) => some (String.mk (c :: cs))
  | _ => none

/-- Parse consecutive field blocks (key line, type line, value line),
stopping at the first line that is not a field-key line and returning it
with the rest. -/
def parseFieldBlocks : List String → Option (Panel × List String)
  | l1 :: l2 :: l3 :: rest =>
      match parseKeyLine l1 with
      | some k =>
          match parseTypeLine l2, parseValueLine l3 with
          | some t, some v =>
              match parseFieldBlocks rest with
              | some (p, rem) => some ((k, some ⟨some t, some v⟩) :: p, rem)
              | none => none
          | _, _ => none
      | none => some ([], l1 :: l2 :: l3 :: rest)
  | ls =>
      match ls with
      | l :: _ => if (parseKeyLine l).isSome then none else some ([], ls)
      | [] => some ([], [])

/-- Parse consecutive preset blocks (title line, `values:` line, field
blocks); the fuel bounds the number of presets. -/
def parseTitleBlocks : Nat → List String → Option Document
  | _, [] => some []
  | 0, _ :: _ => none
  | fuel + 1, l1 :: rest =>
      match parseTitleLine l1 with
      | none => none
      | some t =>
          match rest with
          | l2 :: rest2 =>
              if l2 = "  values:" then
                match parseFieldBlocks rest2 with
                | some (p, rem) =>
                    if p = [] then none
                    else
                      match parseTitleBlocks fuel rem with
                      | some d => some ((t, .node (some p)) :: d)
                      | none => none
                | none => none
              else none
          | [] => none

/-- Lines kept by the loader: blank lines and whole-line comments are
skipped (an all-comment or empty stream loads as the empty mapping). -/
def keptLine (l : String) : Bool :=
  match l.data with
  | [] => false
  | c :: _ => c ≠ '#'

/-- Decode a line sequence: skip comment and blank lines (an all-comment or
empty stream is the empty document), then parse preset blocks. -/
def decodeDocLines (lines : List String) : Option Document :=
  let ls := lines.filter keptLine
  parseTitleBlocks (ls.length + 1) ls

/-- Well-formed field for the codec: a mapping with plain `type` and
`value` strings and a plain key. -/
def wfField (kf : String × Option FieldData) : Bool :=
  match kf.2 with
  | some f =>
      match f.type?, f.value? with
      | some t, some v => plainScalar kf.1 && plainScalar t && plainScalar v
      | _, _ => false
  | none => false

/-- Well-formed preset for the codec: a plain title over a mapping with a
nonempty `values` panel of well-formed fields. -/
def wfPreset (tp : String × PresetVal) : Bool :=
  match tp.2 with
  | .node (some p) => plainScalar tp.1 && p ≠ [] && p.all wfField
  | _ => false

/-- Well-formed document for the codec. -/
def wfDoc (d : Document) : Bool := d.all wfPreset

/-! Prompt-list codec (`NS_PromptList._save_yaml`, `sort_keys=True`). -/

/-- A prompt-list document: titles over their `prompt` strings. -/
abbrev PLDoc := List (String × String)

/-- Code-point lexicographic comparison of character lists, the order Python
string comparison (and hence `sort_keys=True`) uses. -/
def lexLt : List Char → List Char → Bool
  | [], [] => false
  | [], _ :: _ => true
  | _ :: _, [] => false
  | c :: cs, d :: ds =>
      if c.toNat < d.toNat then true
      else if d.toNat < c.toNat then false
      else lexLt cs ds

/-- String comparison used when the dumper sorts keys. -/
def strLt (a b : String) : Bool := lexLt a.data b.data

/-- Insert one entry into a title-sorted list. -/
def plInsertSorted (x : String × String) : PLDoc → PLDoc
  | [] => [x]
  | y :: ys => if strLt x.1 y.1 then x :: y :: ys else y :: plInsertSorted x ys

/-- Sort a prompt-list document by title, modelling `sort_keys=True`. -/
def plSortByTitle (d : PLDoc) : PLDoc := d.foldr plInsertSorted []

/-- Lines dumped for a prompt-list document: keys sorted at dump time. -/
def encodePLLines (d : PLDoc) : List String :=
  ((plSortByTitle d).map (fun tp => [tp.1 ++ ":", "  prompt: " ++ tp.2])).flatten

/-- Parse prompt-list blocks (title line, `␣␣prompt: v` line). -/
def parsePLBlocks : Nat → List String → Option PLDoc
  | _, [] => some []
  | 0, _ :: _ => none
  | fuel + 1, l1 :: rest =>
      match rest with
      | l2 :: rest2 =>
          match parseTitleLine l1, dropPre "  prompt: ".data l2.data with
          | some t, some (c :: cs) =>
              match parsePLBlocks fuel rest2 with
              | some d => some ((t, String.mk (c :: cs)) :: d)
              | none => none
          | _, _ => none
      | [] => none

/-- Decode a prompt-list line sequence. -/
def decodePLLines (lines : List String) : Option PLDoc :=
  let ls := lines.filter keptLine
  parsePLBlocks (ls.length + 1) ls

/-! Corrupt-file handling (`_get_titles_from_yaml`, `_get_values_from_yaml`,
`_handle_corrupt_yaml`).  The presets directory is modelled as a map from
file name to file content (as lines); parsing uses the codec model above. -/

/-- The presets directory: file name to content lines, `none` = absent. -/
abbrev FileSys := String → Option (List String)

/-- Write (create or overwrite) a file. -/
def fsWrite (fs : FileSys) (p : String) (c : List String) : FileSys :=
  fun q => if q = p then some c else fs q

/-- Rename a file, byte-for-byte (`shutil.move`). -/
def fsMove (fs : FileSys) (src dst : String) : FileSys :=
  fun q => if q = dst then fs src else if q = src then none else fs q

/-- Quarantine name: `bad_<timestamp>_<original name>`. -/
def badName (ts name : String) : String := "bad_" ++ ts ++ "_" ++ name

/-- Content of the placeholder written over a quarantined file
(`# Recovered from corrupt file`, a pure-comment stream that loads as the
empty document). -/
def placeholderLines : List String := ["# Recovered from corrupt file"]

/-- Shallow embedding of `_handle_corrupt_yaml`: rename the file to its
quarantine name, then write the placeholder at the original path. -/
def handle_corrupt_yaml (fs : FileSys) (name ts : String) : FileSys :=
  fsWrite (fsMove fs name (badName ts name)) name placeholderLines

/-- Shallow embedding of `_get_titles_from_yaml`: `[""]` for an absent file;
the top-level keys on success; on a parse failure, quarantine the file and
return `[""]`. -/
def get_titles_from_yaml (fs : FileSys) (name ts : String) : List String × FileSys :=
  match fs name with
  | none => ([""], fs)
  | some content =>
      match decodeDocLines content with
      | some d => (d.map (·.1), fs)
      | none => ([""], handle_corrupt_yaml fs name ts)

/-- Shallow embedding of `_get_values_from_yaml` at the directory level:
the empty mapping for an absent file or a parse failure (no quarantine
happens on this path), else the selected panel. -/
def get_values_from_yaml (fs : FileSys) (name title : String) : Panel × FileSys :=
  match fs name with
  | none => ([], fs)
  | some content =>
      match decodeDocLines content with
      | some d => (panelOf d title, fs)
      | none => ([], fs)

/-! The prompt-list evaluation entry point `NS_PromptList.run`. -/

/-- Class of a raised Python exception, as far as the handlers of
`NS_PromptList.run` distinguish them. -/
inductive ExcClass where
  | runtimeError : ExcClass
  | otherError : ExcClass
deriving DecidableEq

/-- Shallow embedding of `NS_PromptList.run`.  `attempt1` is the exception
(if any) raised inside the try body (reading the file, getting the event
loop, or the save it drives); `attempt2` is the exception (if any) raised by
the fallback `asyncio.run(self._save_yaml(...))` that the `except
RuntimeError` handler itself executes.  An exception raised inside that
handler is not caught by the sibling `except Exception` clause and
propagates out of `run`. -/
def NS_PromptList.run (select_yaml select title prompt : String)
    (attempt1 attempt2 : Option ExcClass) : Except ExcClass String :=
  let _ := select_yaml
  let _ := select
  if title ≠ "" && prompt ≠ "" then
    match attempt1 with
    | none => .ok prompt
    | some .runtimeError =>
        match attempt2 with
        | none => .ok prompt
        | some e => .error e
    | some .otherError => .ok prompt
  else .ok prompt

/-! Small derived notions used only to state properties. -/

/-- Declared type of the field under `k` in `p` (the value
`dynamic_output_types` derives the schema entry from). -/
def typeAt (p : Panel) (k : String) : String :=
  match assoc? p k with
  | some (some f) => fieldType f
  | _ => "string"

/-- Does `hay` start with `needle`? -/
def startsList : List Char → List Char → Bool
  | [], _ => true
  | _ :: _, [] => false
  | a :: as, b :: bs => a = b && startsList as bs

/-- Does `needle` occur anywhere inside the list? -/
def hasSubList (needle : List Char) : List Char → Bool
  | [] => needle.isEmpty
  | c :: rest => startsList needle (c :: rest) || hasSubList needle rest

/-- Does string `hay` contain `needle` as a contiguous substring? -/
def strHasSub (hay needle : String) : Bool := hasSubList needle.data hay.data

/-! Helper lemmas about the embedded primitives. -/

theorem memStr_iff {k : String} {xs : List String} : memStr k xs = true ↔ k ∈ xs := by
  induction xs with
  | nil => simp [memStr]
  | cons x xs ih =>
      simp only [memStr, Bool.or_eq_true, decide_eq_true_eq, ih, List.mem_cons]
      constructor
      · rintro (h | h)
        · exact Or.inl h.symm
        · exact Or.inr h
      · rintro (h | h)
        · exact Or.inl h.symm
        · exact Or.inr h

theorem memStr_append {k : String} {a b : List String} :
    memStr k (a ++ b) = (memStr k a || memStr k b) := by
  induction a with
  | nil => simp [memStr]
  | cons x a ih => simp [memStr, ih, Bool.or_assoc]

theorem addMissingKeys_cons {acc : List String} {k : String} {ks : List String} :
    addMissingKeys acc (k :: ks) =
      addMissingKeys (if memStr k acc then acc else acc ++ [k]) ks := rfl

theorem mem_addMissingKeys {x : String} :
    ∀ (ks acc : List String), x ∈ addMissingKeys acc ks → x ∈ acc ∨ x ∈ ks := by
  intro ks
  induction ks with
  | nil => intro acc h; exact Or.inl h
  | cons k ks ih =>
      intro acc h
      rw [addMissingKeys_cons] at h
      rcases ih _ h with h' | h'
      · split at h'
        · exact Or.inl h'
        · rcases List.mem_append.mp h' with h'' | h''
          · exact Or.inl h''
          · simp only [List.mem_singleton] at h''
            exact Or.inr (h'' ▸ List.mem_cons_self k ks)
      · exact Or.inr (List.mem_cons_of_mem _ h')

theorem addMissingKeys_eq {ks : List String} (h : ks.Nodup) :
    ∀ acc, addMissingKeys acc ks = acc ++ ks.filter (fun k => !(memStr k acc)) := by
  induction ks with
  | nil => intro acc; simp [addMissingKeys]
  | cons k ks ih =>
      intro acc
      rcases List.nodup_cons.mp h with ⟨hk, hks⟩
      rw [addMissingKeys_cons]
      by_cases hm : memStr k acc = true
      · rw [if_pos hm, ih hks acc, List.filter_cons]
        simp [hm]
      · rw [if_neg hm, ih hks (acc ++ [k])]
        have hmf : memStr k acc = false := Bool.eq_false_iff.mpr hm
        have hfil : List.filter (fun k2 => !memStr k2 acc) (k :: ks)
            = k :: List.filter (fun k2 => !memStr k2 acc) ks := by
          rw [List.filter_cons]
          simp [hmf]
        rw [hfil, List.append_assoc, List.singleton_append]
        congr 2
        apply List.filter_congr
        intro x hx
        have hxk : x ≠ k := fun he => hk (he ▸ hx)
        have hks1 : memStr x [k] = false := by
          simp only [memStr, Bool.or_false, decide_eq_false_iff_not]
          exact fun he => hxk he.symm
        rw [memStr_append, hks1, Bool.or_false]

theorem keysToProcessSchema_eq (po : List String) (values : Panel)
    (h : (keysOf values).Nodup) :
    keysToProcessSchema po values =
      if po = [] then keysOf values
      else po.filter (fun k => memStr k (keysOf values))
           ++ (keysOf values).filter (fun k => !(memStr k po)) := by
  unfold keysToProcessSchema
  by_cases hpo : po = []
  · simp [hpo]
  · rw [if_pos hpo, if_neg hpo, addMissingKeys_eq h]
    congr 1
    apply List.filter_congr
    intro x hx
    have hmx : memStr x (keysOf values) = true := memStr_iff.mpr hx
    have : memStr x (po.filter fun k => memStr k (keysOf values)) = memStr x po := by
      cases hp : memStr x po with
      | false =>
          rw [Bool.eq_false_iff]
          intro hmem
          rcases List.mem_filter.mp (memStr_iff.mp hmem) with ⟨hxp, _⟩
          have hxpo : memStr x po = true := memStr_iff.mpr hxp
          rw [hp] at hxpo
          exact absurd hxpo (by decide)
      | true =>
          exact memStr_iff.mpr (List.mem_filter.mpr ⟨memStr_iff.mp hp, hmx⟩)
    rw [this]

theorem mem_keysToProcessSchema {x : String} {po : List String} {values : Panel}
    (h : x ∈ keysToProcessSchema po values) : x ∈ keysOf values := by
  unfold keysToProcessSchema at h
  split at h
  · rcases mem_addMissingKeys _ _ h with h' | h'
    · exact memStr_iff.mp (List.mem_filter.mp h').2
    · exact h'
  · exact h

/-- The claim `C2`: the schema resolver's processing order is tracker
entries present in the panel in tracker order, then remaining panel fields
in on-disk order (plain on-disk order for an empty tracker); the concrete
instance of the spec; and `run` uses the identical ordering algorithm. -/
theorem C2_processing_order :
    keysToProcessSchema ["b", "a"]
        [("a", (none : Option FieldData)), ("b", none), ("c", none)] = ["b", "a", "c"] ∧
    (∀ po values, keysToProcessSchema po values = keysToProcessRun po values) ∧
    (∀ po values, (keysOf values).Nodup →
        keysToProcessSchema po values =
          if po = [] then keysOf values
          else po.filter (fun k => memStr k (keysOf values))
               ++ (keysOf values).filter (fun k => !(memStr k po))) :=
  ⟨by decide, fun _ _ => rfl, fun po values h => keysToProcessSchema_eq po values h⟩

theorem assoc?_eq_some_mem {α : Type} {p : List (String × α)} {k : String} {v : α}
    (h : assoc? p k = some v) : (k, v) ∈ p := by
  induction p with
  | nil => cases h
  | cons kv p ih =>
      unfold assoc? at h
      by_cases hk : kv.1 = k
      · rw [if_pos hk] at h
        injection h with h
        subst h
        subst hk
        exact List.mem_cons_self _ _
      · rw [if_neg hk] at h
        exact List.mem_cons_of_mem _ (ih h)

theorem mem_keys_assoc? {α : Type} {p : List (String × α)} {k : String}
    (h : k ∈ p.map Prod.fst) : ∃ v, assoc? p k = some v := by
  induction p with
  | nil => cases h
  | cons kv p ih =>
      by_cases hk : kv.1 = k
      · exact ⟨kv.2, by unfold assoc?; rw [if_pos hk]⟩
      · rcases List.mem_map.mp h with ⟨e, he, hek⟩
        rcases List.mem_cons.mp he with he1 | he1
        · exact absurd (he1 ▸ hek) hk
        · rcases ih (List.mem_map.mpr ⟨e, he1, hek⟩) with ⟨v, hv⟩
          exact ⟨v, by unfold assoc?; rw [if_neg hk]; exact hv⟩

theorem schemaEntriesCore_eq_map {values : Panel} {ks : List String}
    (hall : ∀ k ∈ ks, ∃ f, assoc? values k = some (some f)) :
    schemaEntriesCore values ks =
      (ks.map (fun k => outTypeOf (typeAt values k)),
       ks.map (fun k => k ++ "_" ++ typeAt values k)) := by
  induction ks with
  | nil => rfl
  | cons k ks ih =>
      obtain ⟨f, hf⟩ := hall k (List.mem_cons_self _ _)
      have htyp : typeAt values k = fieldType f := by unfold typeAt; rw [hf]
      have ihr := ih (fun k2 hk2 => hall k2 (List.mem_cons_of_mem _ hk2))
      simp only [schemaEntriesCore, hf, ihr, List.map_cons, htyp]

theorem dynamic_output_types_ok {sy sp ipn : String} {d : Document}
    {po : List String} {wl : Bool}
    (ht : titleToUse sp ipn ≠ "") (hs : sy ≠ "")
    (hall : ∀ kv ∈ panelOf d (titleToUse sp ipn), (kv.2 : Option FieldData).isSome) :
    dynamic_output_types sy sp ipn (.ok d) po wl =
      (if keysToProcessSchema po (panelOf d (titleToUse sp ipn)) = []
       then (["STRING"], ["output"])
       else ((keysToProcessSchema po (panelOf d (titleToUse sp ipn))).map
                (fun k => outTypeOf (typeAt (panelOf d (titleToUse sp ipn)) k)),
             (keysToProcessSchema po (panelOf d (titleToUse sp ipn))).map
                (fun k => k ++ "_" ++ typeAt (panelOf d (titleToUse sp ipn)) k))) := by
  have hcond : ¬(titleToUse sp ipn = "" ∨ sy = "") := by
    rintro (h | h)
    · exact ht h
    · exact hs h
  have hall2 : ∀ k ∈ keysToProcessSchema po (panelOf d (titleToUse sp ipn)),
      ∃ f, assoc? (panelOf d (titleToUse sp ipn)) k = some (some f) := by
    intro k hk
    rcases mem_keys_assoc? (mem_keysToProcessSchema hk) with ⟨v, hv⟩
    have hmem := assoc?_eq_some_mem hv
    have := hall _ hmem
    rcases v with _ | f
    · cases this
    · exact ⟨f, hv⟩
  simp only [dynamic_output_types]
  rw [if_neg hcond, schemaEntriesCore_eq_map hall2]
  by_cases hks : keysToProcessSchema po (panelOf d (titleToUse sp ipn)) = []
  · simp [hks]
  · have hm1 : ¬(((keysToProcessSchema po (panelOf d (titleToUse sp ipn))).map
        (fun k => outTypeOf (typeAt (panelOf d (titleToUse sp ipn)) k))) = []) := by
      intro hnil
      exact hks (List.map_eq_nil_iff.mp hnil)
    rw [if_neg hm1, if_neg hks]

/-- Witness for `C2_processing_order` at a concrete tracker and panel. -/
theorem C2_processing_order_witness :
    keysToProcessSchema ["z"] [("x", (none : Option FieldData))] =
      if (["z"] : List String) = [] then keysOf [("x", (none : Option FieldData))]
      else (["z"] : List String).filter (fun k => memStr k (keysOf [("x", (none : Option FieldData))]))
           ++ (keysOf [("x", (none : Option FieldData))]).filter (fun k => !(memStr k ["z"])) :=
  C2_processing_order.2.2 ["z"] [("x", none)] (by decide)

/-- The claim `C3`, amended: outside the workflow-loading state the schema
has length at least one; an empty preset name or empty document selection, a
missing or unparsable file, or an empty processing order give exactly the
single default `STRING`/`output` entry; otherwise (all panel entries
mapping-valued) the schema has one entry per processed key, named
`<field>_<declared type>`, with `int` mapped to `INT`, `float` to `FLOAT`,
anything else to `STRING`. -/
theorem C3_schema_default :
    (∀ sy sp ipn fs po, 1 ≤ (dynamic_output_types sy sp ipn fs po false).1.length) ∧
    (∀ sy sp ipn fs po, (titleToUse sp ipn = "" ∨ sy = "") →
        dynamic_output_types sy sp ipn fs po false = (["STRING"], ["output"])) ∧
    (∀ sy sp ipn po wl, titleToUse sp ipn ≠ "" → sy ≠ "" →
        dynamic_output_types sy sp ipn .missing po wl = (["STRING"], ["output"]) ∧
        dynamic_output_types sy sp ipn .corrupt po wl = (["STRING"], ["output"])) ∧
    (∀ sy sp ipn d po wl, titleToUse sp ipn ≠ "" → sy ≠ "" →
        (∀ kv ∈ panelOf d (titleToUse sp ipn), (kv.2 : Option FieldData).isSome) →
        dynamic_output_types sy sp ipn (.ok d) po wl =
          (if keysToProcessSchema po (panelOf d (titleToUse sp ipn)) = []
           then (["STRING"], ["output"])
           else ((keysToProcessSchema po (panelOf d (titleToUse sp ipn))).map
                    (fun k => outTypeOf (typeAt (panelOf d (titleToUse sp ipn)) k)),
                 (keysToProcessSchema po (panelOf d (titleToUse sp ipn))).map
                    (fun k => k ++ "_" ++ typeAt (panelOf d (titleToUse sp ipn)) k)))) := by
  refine ⟨?_, ?_, ?_, ?_⟩
  · intro sy sp ipn fs po
    by_cases hcond : titleToUse sp ipn = "" ∨ sy = ""
    · have h : dynamic_output_types sy sp ipn fs po false = (["STRING"], ["output"]) := by
        simp only [dynamic_output_types]
        rw [if_pos hcond]
        simp
      rw [h]
      simp
    · cases fs with
      | missing =>
          have h : dynamic_output_types sy sp ipn .missing po false
              = (["STRING"], ["output"]) := by
            simp only [dynamic_output_types]
            rw [if_neg hcond]
          rw [h]
          simp
      | corrupt =>
          have h : dynamic_output_types sy sp ipn .corrupt po false
              = (["STRING"], ["output"]) := by
            simp only [dynamic_output_types]
            rw [if_neg hcond]
          rw [h]
          simp
      | ok d =>
          have h : dynamic_output_types sy sp ipn (.ok d) po false =
              (if (schemaEntriesCore (panelOf d (titleToUse sp ipn))
                    (keysToProcessSchema po (panelOf d (titleToUse sp ipn)))).1 = []
               then (["STRING"], ["output"])
               else schemaEntriesCore (panelOf d (titleToUse sp ipn))
                    (keysToProcessSchema po (panelOf d (titleToUse sp ipn)))) := by
            simp only [dynamic_output_types]
            rw [if_neg hcond]
          rw [h]
          by_cases hres :
              (schemaEntriesCore (panelOf d (titleToUse sp ipn))
                (keysToProcessSchema po (panelOf d (titleToUse sp ipn)))).1 = []
          · rw [if_pos hres]
            simp
          · rw [if_neg hres]
            have := List.length_pos.mpr hres
            omega
  · intro sy sp ipn fs po hcond
    simp only [dynamic_output_types]
    rw [if_pos hcond]
    simp
  · intro sy sp ipn po wl ht hs
    have hcond : ¬(titleToUse sp ipn = "" ∨ sy = "") := by
      rintro (h | h)
      · exact ht h
      · exact hs h
    constructor
    · simp only [dynamic_output_types]
      rw [if_neg hcond]
    · simp only [dynamic_output_types]
      rw [if_neg hcond]
  · intro sy sp ipn d po wl ht hs hall
    exact dynamic_output_types_ok ht hs hall

/-- Witness for `C3_schema_default` at concrete inputs, one per conjunct. -/
theorem C3_schema_default_witness :
    1 ≤ (dynamic_output_types "d.yaml" "p" "" .missing [] false).1.length ∧
    dynamic_output_types "d.yaml" "" "" .missing [] false = (["STRING"], ["output"]) ∧
    dynamic_output_types "d.yaml" "p" "" .corrupt ["q"] false = (["STRING"], ["output"]) ∧
    dynamic_output_types "d.yaml" "p" ""
        (.ok [("p", .node (some [("a", some ⟨some "int", some "1"⟩)]))]) [] false =
      (if keysToProcessSchema []
            (panelOf [("p", .node (some [("a", some ⟨some "int", some "1"⟩)]))]
              (titleToUse "p" "")) = []
       then (["STRING"], ["output"])
       else ((keysToProcessSchema []
                (panelOf [("p", .node (some [("a", some ⟨some "int", some "1"⟩)]))]
                  (titleToUse "p" ""))).map
                (fun k => outTypeOf (typeAt
                  (panelOf [("p", .node (some [("a", some ⟨some "int", some "1"⟩)]))]
                    (titleToUse "p" "")) k)),
             (keysToProcessSchema []
                (panelOf [("p", .node (some [("a", some ⟨some "int", some "1"⟩)]))]
                  (titleToUse "p" ""))).map
                (fun k => k ++ "_" ++ typeAt
                  (panelOf [("p", .node (some [("a", some ⟨some "int", some "1"⟩)]))]
                    (titleToUse "p" "")) k))) :=
  ⟨C3_schema_default.1 "d.yaml" "p" "" .missing [],
   C3_schema_default.2.1 "d.yaml" "" "" .missing [] (Or.inl (by decide)),
   (C3_schema_default.2.2.1 "d.yaml" "p" "" ["q"] false (by decide) (by decide)).2,
   C3_schema_default.2.2.2 "d.yaml" "p" ""
     [("p", .node (some [("a", some ⟨some "int", some "1"⟩)]))] [] false
     (by decide) (by decide) (by decide)⟩

/-- Counterexample to the claim `C3` as stated: during workflow loading
(`_workflow_loading` set, as the `get_prompt` route does while initialising
a loaded workflow) with an empty preset selection, `dynamic_output_types`
returns the empty schema, not a schema of length at least one. -/
theorem C3_workflow_loading_counterexample :
    (dynamic_output_types "doc.yaml" "" "" .missing [] true).1.length = 0 := rfl

theorem reconcile_length (outs : List String) (raw : List OutVal) :
    (reconcile outs raw).length = outs.length := by
  unfold reconcile
  by_cases h1 : raw.length < outs.length
  · rw [if_pos h1]
    simp only [List.length_append, List.length_map, List.length_drop, List.length_range]
    omega
  · rw [if_neg h1]
    by_cases h2 : raw.length > outs.length
    · rw [if_pos h2]
      simp only [List.length_take]
      omega
    · rw [if_neg h2]
      omega

theorem reconcile_getD_lt {outs : List String} {raw : List OutVal} {i : Nat}
    (h1 : i < outs.length) (h2 : i < raw.length) :
    (reconcile outs raw).getD i (.s "") = raw.getD i (.s "") := by
  unfold reconcile
  by_cases ha : raw.length < outs.length
  · rw [if_pos ha, List.getD_eq_getElem?_getD, List.getElem?_append_left h2,
      ← List.getD_eq_getElem?_getD]
  · rw [if_neg ha]
    by_cases hb : raw.length > outs.length
    · rw [if_pos hb, List.getD_eq_getElem?_getD, List.getElem?_take]
      simp only [h1, if_true]
      rw [← List.getD_eq_getElem?_getD]
    · rw [if_neg hb]

theorem reconcile_getD_pad {outs : List String} {raw : List OutVal} {i : Nat}
    (h1 : raw.length ≤ i) (h2 : i < outs.length) :
    (reconcile outs raw).getD i (.s "") = zeroOf (outs.getD i "STRING") := by
  have hlt : raw.length < outs.length := lt_of_le_of_lt h1 h2
  unfold reconcile
  rw [if_pos hlt, List.getD_eq_getElem?_getD, List.getElem?_append_right h1,
    List.getElem?_map, List.getElem?_drop]
  have hi : raw.length + (i - raw.length) = i := by omega
  rw [hi, List.getElem?_range h2]
  rfl

/-- The claim `C1`, amended: when `run` returns a tuple, its length equals
the length of the schema `dynamic_output_types` resolved inside the same
call; positions covered by the resolved value list (first defaulted to the
single empty string when no value resolved) carry those values, and missing
trailing positions carry the zero of the position's declared output type. -/
theorem C1_run_arity :
    ∀ sy sp ipn vfs sfs po wl vs,
      run sy sp ipn vfs sfs po wl = .ok vs →
      vs.length = (dynamic_output_types sy sp ipn sfs po wl).1.length ∧
      ∃ raw, runRaw (runValuesPanel vfs (titleToUse sp ipn)) po = .ok raw ∧
        (∀ i, i < (dynamic_output_types sy sp ipn sfs po wl).1.length →
            i < (if raw = [] then [OutVal.s ""] else raw).length →
            vs.getD i (.s "") = (if raw = [] then [OutVal.s ""] else raw).getD i (.s "")) ∧
        (∀ i, (if raw = [] then [OutVal.s ""] else raw).length ≤ i →
            i < (dynamic_output_types sy sp ipn sfs po wl).1.length →
            vs.getD i (.s "") =
              zeroOf ((dynamic_output_types sy sp ipn sfs po wl).1.getD i "STRING")) := by
  intro sy sp ipn vfs sfs po wl vs h
  simp only [run] at h
  rcases hrr : runRaw (runValuesPanel vfs (titleToUse sp ipn)) po with e | raw
  · rw [hrr] at h
    simp at h
  · rw [hrr] at h
    simp only [Except.ok.injEq] at h
    subst h
    refine ⟨reconcile_length _ _, raw, rfl, ?_, ?_⟩
    · intro i hi1 hi2
      exact reconcile_getD_lt hi1 hi2
    · intro i hi1 hi2
      exact reconcile_getD_pad hi1 hi2

/-- Witness for `C1_run_arity` at a concrete input. -/
theorem C1_run_arity_witness :
    run "d.yaml" "p" "" .missing .missing [] false = .ok [OutVal.s ""] ∧
    ([OutVal.s ""] : List OutVal).length =
      (dynamic_output_types "d.yaml" "p" "" .missing [] false).1.length :=
  ⟨rfl, (C1_run_arity "d.yaml" "p" "" .missing .missing [] false [OutVal.s ""] rfl).1⟩

/-- Counterexample to the claim `C1` as stated: when no value is resolvable
but the schema snapshot holds one INT field, the single missing position is
filled with the empty string (the `if not output_values` default), not with
the INT zero value `0` that the claim requires for a missing trailing
position of declared type INT. -/
theorem C1_zero_values_counterexample :
    run "d.yaml" "t" "" .missing
        (.ok [("t", .node (some [("a", some ⟨some "int", some "5"⟩)]))]) [] false
      = .ok [OutVal.s ""] ∧
    (dynamic_output_types "d.yaml" "t" ""
        (.ok [("t", .node (some [("a", some ⟨some "int", some "5"⟩)]))]) [] false).1
      = ["INT"] ∧
    OutVal.s "" ≠ zeroOf "INT" :=
  ⟨rfl, rfl, by decide⟩

theorem buildValues_error {values : Panel} :
    ∀ (ks : List String) (k : String) (f : FieldData), k ∈ ks →
      assoc? values k = some (some f) →
      convertValue (fieldType f) (fieldValue f) = none →
      ∃ e, buildValues values ks = .error e ∧
        ∃ k2 f2, assoc? values k2 = some (some f2) ∧
          convertValue (fieldType f2) (fieldValue f2) = none ∧
          e = runErrMsg (fieldValue f2) (fieldType f2) k2 := by
  intro ks
  induction ks with
  | nil => intro k f hk _ _; cases hk
  | cons k0 ks ih =>
      intro k f hk hak hcf
      rcases ha0 : assoc? values k0 with _ | v0
      · have hk' : k ∈ ks := by
          rcases List.mem_cons.mp hk with h | h
          · rw [← h, hak] at ha0; cases ha0
          · exact h
        rcases ih k f hk' hak hcf with ⟨e, he, w⟩
        exact ⟨e, by simp only [buildValues, ha0, he], w⟩
      · rcases v0 with _ | f0
        · have hk' : k ∈ ks := by
            rcases List.mem_cons.mp hk with h | h
            · rw [← h, hak] at ha0; cases ha0
            · exact h
          rcases ih k f hk' hak hcf with ⟨e, he, w⟩
          exact ⟨e, by simp only [buildValues, ha0, he], w⟩
        · rcases hc0 : convertValue (fieldType f0) (fieldValue f0) with _ | ov
          · refine ⟨runErrMsg (fieldValue f0) (fieldType f0) k0,
              by simp only [buildValues, ha0, hc0], k0, f0, ha0, hc0, rfl⟩
          · have hk' : k ∈ ks := by
              rcases List.mem_cons.mp hk with h | h
              · rw [← h, hak] at ha0
                injection ha0 with ha0
                injection ha0 with ha0
                rw [← ha0] at hc0
                rw [hcf] at hc0
                cases hc0
              · exact h
            rcases ih k f hk' hak hcf with ⟨e, he, w⟩
            refine ⟨e, ?_, w⟩
            simp only [buildValues, ha0, hc0, he]
            rfl

/-- The claim `C6`, amended: if any field in the processing order has a
mapping value whose stored string fails conversion to its declared type,
`run` raises; the raised message is the canonical conversion message of a
failing processed field, naming that field, its declared type and its
offending value (the message does not mention the document or the
preset). -/
theorem C6_conversion_error :
    ∀ sy sp ipn vfs sfs po wl k f,
      k ∈ keysToProcessRun po (runValuesPanel vfs (titleToUse sp ipn)) →
      assoc? (runValuesPanel vfs (titleToUse sp ipn)) k = some (some f) →
      convertValue (fieldType f) (fieldValue f) = none →
      ∃ e, run sy sp ipn vfs sfs po wl = .error e ∧
        ∃ k2 f2, assoc? (runValuesPanel vfs (titleToUse sp ipn)) k2 = some (some f2) ∧
          convertValue (fieldType f2) (fieldValue f2) = none ∧
          e = runErrMsg (fieldValue f2) (fieldType f2) k2 := by
  intro sy sp ipn vfs sfs po wl k f hmem hak hcf
  have hkeys : k ∈ keysOf (runValuesPanel vfs (titleToUse sp ipn)) :=
    mem_keysToProcessSchema hmem
  have hne : runValuesPanel vfs (titleToUse sp ipn) ≠ [] := by
    intro h
    rw [h] at hkeys
    cases hkeys
  rcases buildValues_error (keysToProcessRun po (runValuesPanel vfs (titleToUse sp ipn)))
      k f hmem hak hcf with ⟨e, he, w⟩
  have hrr : runRaw (runValuesPanel vfs (titleToUse sp ipn)) po = .error e := by
    unfold runRaw
    rw [if_pos hne]
    exact he
  refine ⟨e, ?_, w⟩
  simp only [run]
  rw [hrr]

/-- Witness for `C6_conversion_error` at a concrete failing field. -/
theorem C6_conversion_error_witness :
    ∃ e, run "d.yaml" "t" ""
        (.ok [("t", .node (some [("k", some ⟨some "int", some "x"⟩)]))]) .missing [] false
      = .error e ∧
      ∃ k2 f2,
        assoc? (runValuesPanel
            (.ok [("t", .node (some [("k", some ⟨some "int", some "x"⟩)]))])
            (titleToUse "t" "")) k2 = some (some f2) ∧
        convertValue (fieldType f2) (fieldValue f2) = none ∧
        e = runErrMsg (fieldValue f2) (fieldType f2) k2 :=
  C6_conversion_error "d.yaml" "t" ""
    (.ok [("t", .node (some [("k", some ⟨some "int", some "x"⟩)]))]) .missing [] false
    "k" ⟨some "int", some "x"⟩ (by decide) (by decide) (by decide)

/-- Counterexample to the claim `C6` as stated: the raised message names the
offending value, declared type and field key, but not the document
(`scene.yaml`) and not the preset (`portrait`) that the claim requires it to
name. -/
theorem C6_error_message_counterexample :
    run "scene.yaml" "portrait" ""
        (.ok [("portrait", .node (some [("k", some ⟨some "int", some "x"⟩)]))])
        (.ok [("portrait", .node (some [("k", some ⟨some "int", some "x"⟩)]))]) [] false
      = .error (runErrMsg "x" "int" "k") ∧
    strHasSub (runErrMsg "x" "int" "k") "scene" = false ∧
    strHasSub (runErrMsg "x" "int" "k") "portrait" = false :=
  ⟨rfl, by decide, by decide⟩

theorem odInsert_fresh {α : Type} {p : List (String × α)} {k : String} {v : α}
    (h : k ∉ p.map (·.1)) : odInsert p k v = p ++ [(k, v)] := by
  unfold odInsert
  rw [if_neg]
  intro hm
  exact h (memStr_iff.mp hm)

theorem rename_keys_nodup {l : List String} {old new : String}
    (hnd : l.Nodup) (hnew : new ∉ l) :
    (l.map (fun k => if k = old then new else k)).Nodup := by
  induction l with
  | nil => exact List.nodup_nil
  | cons a l ih =>
      rcases List.nodup_cons.mp hnd with ⟨hal, hl⟩
      have hanew : a ≠ new := fun h => hnew (h ▸ List.mem_cons_self a l)
      have hnew' : new ∉ l := fun h => hnew (List.mem_cons_of_mem _ h)
      rw [List.map_cons]
      refine List.nodup_cons.mpr ⟨?_, ih hl hnew'⟩
      intro hmem
      rcases List.mem_map.mp hmem with ⟨b, hb, hbe⟩
      by_cases hao : a = old
      · rw [if_pos hao] at hbe
        by_cases hbo : b = old
        · rw [hao] at hal
          exact hal (hbo ▸ hb)
        · rw [if_neg hbo] at hbe
          exact hnew' (hbe ▸ hb)
      · rw [if_neg hao] at hbe
        by_cases hbo : b = old
        · rw [if_pos hbo] at hbe
          exact hanew hbe.symm
        · rw [if_neg hbo] at hbe
          exact hal (hbe ▸ hb)

theorem renamePanel_fold {old new : String} :
    ∀ (p : Panel) (acc : Panel),
      (∀ kv ∈ p, ((if kv.1 = old then new else kv.1) : String) ∉ acc.map (·.1)) →
      ((p.map fun kv => (((if kv.1 = old then new else kv.1) : String), kv.2)).map (·.1)).Nodup →
      p.foldl (fun acc kv => if kv.1 = old then odInsert acc new kv.2
               else odInsert acc kv.1 kv.2) acc
        = acc ++ p.map (fun kv => (((if kv.1 = old then new else kv.1) : String), kv.2)) := by
  intro p
  induction p with
  | nil => intro acc _ _; simp
  | cons kv p ih =>
      intro acc hfresh hnd
      have hstep : (if kv.1 = old then odInsert acc new kv.2
          else odInsert acc kv.1 kv.2)
            = odInsert acc (if kv.1 = old then new else kv.1) kv.2 := by
        by_cases h : kv.1 = old
        · rw [if_pos h, if_pos h]
        · rw [if_neg h, if_neg h]
      have hk' : ((if kv.1 = old then new else kv.1) : String) ∉ acc.map (·.1) :=
        hfresh kv (List.mem_cons_self _ _)
      rw [List.foldl_cons, hstep, odInsert_fresh hk']
      rw [List.map_cons, List.map_cons] at hnd
      rcases List.nodup_cons.mp hnd with ⟨hhead, htail⟩
      rw [ih (acc ++ [((if kv.1 = old then new else kv.1), kv.2)]) ?_ htail]
      · simp
      · intro kv2 hkv2
        rw [List.map_append]
        intro hmem
        rcases List.mem_append.mp hmem with hm | hm
        · exact hfresh kv2 (List.mem_cons_of_mem _ hkv2) hm
        · simp only [List.map_cons, List.map_nil, List.mem_singleton] at hm
          have hmm : ((if kv2.1 = old then new else kv2.1) : String)
              ∈ (p.map fun kv => (((if kv.1 = old then new else kv.1) : String), kv.2)).map
                  (·.1) :=
            List.mem_map.mpr ⟨((if kv2.1 = old then new else kv2.1), kv2.2),
              List.mem_map.mpr ⟨kv2, hkv2, rfl⟩, rfl⟩
          rw [hm] at hmm
          exact hhead hmm

theorem replaceFirst_append {old new : String} :
    ∀ (pre post : List String), old ∉ pre →
      replaceFirst (pre ++ old :: post) old new = pre ++ new :: post := by
  intro pre
  induction pre with
  | nil =>
      intro post _
      simp [replaceFirst]
  | cons x pre ih =>
      intro post hpre
      have hx : x ≠ old := fun h => hpre (h ▸ List.mem_cons_self x pre)
      simp only [List.cons_append, replaceFirst, if_neg hx, List.append_eq]
      rw [ih post (fun h => hpre (List.mem_cons_of_mem _ h))]

/-- The claim `C5`, amended: the file-level rename is a no-op reporting
failure for a missing or unparsable file, an empty new name, `old = new`,
or an old name absent from the panel; when the new name is not an existing
field, it rewrites the panel with `old` renamed to `new` in place (all
other entries and the order unchanged); and when the request carries no
panel-order payload, the Panel Order Tracker gets the same first-occurrence
in-place substitution (whether or not the file-level rename succeeds). -/
theorem C5_rename :
    (∀ title old new, update_key_name .missing title old new = none ∧
        update_key_name .corrupt title old new = none) ∧
    (∀ d title old, update_key_name (.ok d) title old "" = none) ∧
    (∀ d title old, update_key_name (.ok d) title old old = none) ∧
    (∀ d p title old new, assoc? d title = some (.node (some p)) →
        old ∉ keysOf p → update_key_name (.ok d) title old new = none) ∧
    (∀ d p title old new,
        assoc? d title = some (.node (some p)) →
        old ∈ keysOf p → new ≠ "" → new ∉ keysOf p → (keysOf p).Nodup →
        update_key_name (.ok d) title old new =
          some (docSet d title (.node (some
            (p.map (fun kv => (((if kv.1 = old then new else kv.1) : String), kv.2))))))) ∧
    (∀ tracker old new, old ∈ tracker →
        update_key_route_tracker none tracker old new = replaceFirst tracker old new) ∧
    (∀ pre post old new, old ∉ pre →
        replaceFirst (pre ++ old :: post) old new = pre ++ new :: post) := by
  refine ⟨fun _ _ _ => ⟨rfl, rfl⟩, ?_, ?_, ?_, ?_, ?_, ?_⟩
  · intro d title old
    simp only [update_key_name]
    simp
  · intro d title old
    simp only [update_key_name]
    by_cases hne : old = ""
    · rw [if_pos hne]
    · rw [if_neg hne]
      rcases ha : assoc? d title with _ | pv
      · simp [ha]
      · rcases pv with _ | vo
        · simp [ha]
        · rcases vo with _ | p
          · simp [ha]
          · have hfalse : (memStr old (keysOf p) && decide (old ≠ old)) = false := by
              simp
            simp only [ha]
            rw [if_neg (by rw [hfalse]; exact Bool.false_ne_true)]
  · intro d p title old new hassoc hold
    simp only [update_key_name]
    by_cases hnew : new = ""
    · rw [if_pos hnew]
    · rw [if_neg hnew]
      simp only [hassoc]
      have hfalse : (memStr old (keysOf p) && decide (old ≠ new)) = false := by
        have h1 : memStr old (keysOf p) = false := by
          cases h : memStr old (keysOf p) with
          | false => rfl
          | true => exact absurd (memStr_iff.mp h) hold
        rw [h1, Bool.false_and]
      rw [if_neg (by rw [hfalse]; exact Bool.false_ne_true)]
  · intro d p title old new hassoc hold hnew hnewmem hnd
    have holdnew : old ≠ new := fun h => hnewmem (h ▸ hold)
    simp only [update_key_name]
    rw [if_neg hnew]
    simp only [hassoc]
    have hcond : (memStr old (keysOf p) && decide (old ≠ new)) = true := by
      rw [memStr_iff.mpr hold, decide_eq_true holdnew, Bool.and_self]
    rw [if_pos hcond]
    congr 1
    congr 2
    unfold renamePanel
    have hnd2 : ((p.map fun kv =>
        (((if kv.1 = old then new else kv.1) : String), kv.2)).map (·.1)).Nodup := by
      rw [List.map_map]
      have hcomp : ((·.1) ∘ fun kv : String × Option FieldData =>
          (((if kv.1 = old then new else kv.1) : String), kv.2))
            = (fun k => if k = old then new else k) ∘ (·.1) := by
        funext kv
        rfl
      rw [hcomp, ← List.map_map]
      exact rename_keys_nodup hnd hnewmem
    rw [renamePanel_fold p [] (by intro kv _; simp) hnd2]
    simp
  · intro tracker old new hold
    unfold update_key_route_tracker
    rw [if_pos (memStr_iff.mpr hold)]
  · intro pre post old new hpre
    exact replaceFirst_append pre post hpre

/-- Witness for `C5_rename` at the spec's concrete rename example and a
concrete tracker. -/
theorem C5_rename_witness :
    update_key_name
        (.ok [("preset", .node (some [("width", some ⟨some "int", some "1"⟩),
          ("height", some ⟨some "int", some "2"⟩),
          ("depth", some ⟨some "int", some "3"⟩)]))])
        "preset" "height" "height_px" =
      some (docSet [("preset", .node (some [("width", some ⟨some "int", some "1"⟩),
          ("height", some ⟨some "int", some "2"⟩),
          ("depth", some ⟨some "int", some "3"⟩)]))]
        "preset" (.node (some
          ([("width", some ⟨some "int", some "1"⟩),
            ("height", some ⟨some "int", some "2"⟩),
            ("depth", some ⟨some "int", some "3"⟩)].map
              (fun kv => (((if kv.1 = "height" then "height_px" else kv.1) : String),
                kv.2)))))) ∧
    update_key_route_tracker none ["width", "height", "depth"] "height" "height_px" =
      replaceFirst ["width", "height", "depth"] "height" "height_px" ∧
    replaceFirst (["width"] ++ "height" :: ["depth"]) "height" "height_px" =
      ["width"] ++ "height_px" :: ["depth"] :=
  ⟨C5_rename.2.2.2.2.1
      [("preset", .node (some [("width", some ⟨some "int", some "1"⟩),
        ("height", some ⟨some "int", some "2"⟩),
        ("depth", some ⟨some "int", some "3"⟩)]))]
      [("width", some ⟨some "int", some "1"⟩),
        ("height", some ⟨some "int", some "2"⟩),
        ("depth", some ⟨some "int", some "3"⟩)]
      "preset" "height" "height_px" (by decide) (by decide) (by decide)
      (by decide) (by decide),
   C5_rename.2.2.2.2.2.1 ["width", "height", "depth"] "height" "height_px" (by decide),
   C5_rename.2.2.2.2.2.2 ["width"] ["depth"] "height" "height_px" (by decide)⟩

/-- Counterexample to the claim `C5` as stated: renaming `a` to an already
existing field name `b` collapses the two fields into one (the rebuilt
ordered mapping writes `b` twice), so the other field and its value are not
preserved. -/
theorem C5_rename_collision_counterexample :
    update_key_name
        (.ok [("t", .node (some [("a", some ⟨some "string", some "1"⟩),
          ("b", some ⟨some "string", some "2"⟩)]))]) "t" "a" "b" =
      some [("t", .node (some [("b", some ⟨some "string", some "2"⟩)]))] ∧
    (panelOf [("t", PresetVal.node (some [("b", some ⟨some "string", some "2"⟩)]))] "t").length
      = 1 :=
  ⟨rfl, rfl⟩

/-- The claim `C7`, amended: the add-or-update operation creates the preset
(then holding just the new field) when absent; it overwrites an existing
field in place (panel keys unchanged) and appends a new field at the end; a
missing `values` key is created; a type/value mismatch only produces a
warning and the write proceeds regardless.  Failure is not only I/O-level:
an unparsable document and a non-mapping preset value also fail (see the
counterexample). -/
theorem C7_add_or_update :
    (∀ d title key kt kv, assoc? d title = none →
        add_value (.ok d) title key kt kv =
          some (d ++ [(title, .node (some [(key, some ⟨some kt, some kv⟩)]))])) ∧
    (∀ d p title key kt kv, assoc? d title = some (.node (some p)) → key ∈ keysOf p →
        add_value (.ok d) title key kt kv =
          some (docSet d title (.node (some (p.map (fun e =>
            if e.1 = key then (key, some ⟨some kt, some kv⟩) else e)))))) ∧
    (∀ (p : Panel) key v, key ∈ keysOf p → keysOf (odInsert p key v) = keysOf p) ∧
    (∀ d p title key kt kv, assoc? d title = some (.node (some p)) → key ∉ keysOf p →
        add_value (.ok d) title key kt kv =
          some (docSet d title (.node (some (p ++ [(key, some ⟨some kt, some kv⟩)]))))) ∧
    (∀ d title key kt kv, assoc? d title = some (.node none) →
        add_value (.ok d) title key kt kv =
          some (docSet d title (.node (some [(key, some ⟨some kt, some kv⟩)])))) ∧
    (∀ fs title key kt kv,
        (update_value_route fs title key kt kv).2 = add_value fs title key kt kv ∧
        (update_value_route fs title key kt kv).1 = !(validate_value_type kt kv)) := by
  refine ⟨?_, ?_, ?_, ?_, ?_, fun _ _ _ _ _ => ⟨rfl, rfl⟩⟩
  · intro d title key kt kv h
    simp only [add_value, add_value_go, h]
    simp [odInsert, memStr]
  · intro d p title key kt kv hassoc hkey
    have hm : memStr key (p.map (·.1)) = true := memStr_iff.mpr hkey
    simp only [add_value, add_value_go, hassoc, Option.getD_some, odInsert, hm, if_true]
  · intro p key v hkey
    have hm : memStr key (p.map (·.1)) = true := memStr_iff.mpr hkey
    simp only [odInsert, hm, if_true]
    unfold keysOf
    rw [List.map_map]
    apply List.map_congr_left
    intro e he
    simp only [Function.comp_apply]
    rw [apply_ite Prod.fst]
    by_cases h : e.1 = key
    · rw [if_pos h]
      exact h.symm
    · rw [if_neg h]
  · intro d p title key kt kv hassoc hkey
    have hm : key ∉ p.map (·.1) := hkey
    simp only [add_value, add_value_go, hassoc, Option.getD_some, odInsert_fresh hm]
  · intro d title key kt kv hassoc
    simp only [add_value, add_value_go, hassoc, Option.getD_none]
    simp [odInsert, memStr]

/-- Witness for `C7_add_or_update` at concrete documents. -/
theorem C7_add_or_update_witness :
    add_value (.ok []) "t" "k" "string" "v" =
      some ([] ++ [("t", .node (some [("k", some ⟨some "string", some "v"⟩)]))]) ∧
    add_value (.ok [("t", .node (some [("k", some ⟨some "int", some "1"⟩)]))])
        "t" "k" "string" "v" =
      some (docSet [("t", .node (some [("k", some ⟨some "int", some "1"⟩)]))]
        "t" (.node (some ([("k", some ⟨some "int", some "1"⟩)].map (fun e =>
          if e.1 = "k" then ("k", some ⟨some "string", some "v"⟩) else e))))) ∧
    add_value (.ok [("t", .node (some [("a", some ⟨some "int", some "1"⟩)]))])
        "t" "k" "string" "v" =
      some (docSet [("t", .node (some [("a", some ⟨some "int", some "1"⟩)]))]
        "t" (.node (some ([("a", some ⟨some "int", some "1"⟩)]
          ++ [("k", some ⟨some "string", some "v"⟩)])))) :=
  ⟨C7_add_or_update.1 [] "t" "k" "string" "v" (by decide),
   C7_add_or_update.2.1 [("t", .node (some [("k", some ⟨some "int", some "1"⟩)]))]
     [("k", some ⟨some "int", some "1"⟩)] "t" "k" "string" "v" (by decide) (by decide),
   C7_add_or_update.2.2.2.1 [("t", .node (some [("a", some ⟨some "int", some "1"⟩)]))]
     [("a", some ⟨some "int", some "1"⟩)] "t" "k" "string" "v" (by decide) (by decide)⟩

/-- Counterexample to the claim `C7` as stated: the operation also reports
failure on inputs that involve no I/O-level error at all - a document whose
bytes fail to parse, and a document whose value under the preset name is a
non-mapping scalar (the `OrderedDict` conversion raises). -/
theorem C7_failure_counterexample :
    add_value .corrupt "t" "k" "string" "v" = none ∧
    add_value (.ok [("t", PresetVal.scalar)]) "t" "k" "string" "v" = none :=
  ⟨rfl, rfl⟩

theorem badName_ne (ts name : String) : badName ts name ≠ name := by
  intro h
  have hlen := congrArg String.length h
  unfold badName at hlen
  have h4 : ("bad_" : String).length = 4 := rfl
  have h1 : ("_" : String).length = 1 := rfl
  simp only [String.length_append, h4, h1] at hlen
  omega

/-- The claim `C4`, amended: a titles read of an unparsable file returns the
one-element sentinel list `[""]` (not the empty list an empty document
yields), quarantines the file under `bad_<timestamp>_<name>` with its bytes
intact, and writes the placeholder (a valid empty document) at the original
path; a values read of the same unparsable file returns the empty mapping
but performs no quarantine. -/
theorem C4_corrupt_recovery :
    ∀ (fs : FileSys) (name ts title : String) (content : List String),
      fs name = some content →
      decodeDocLines content = none →
      get_titles_from_yaml fs name ts = ([""], handle_corrupt_yaml fs name ts) ∧
      handle_corrupt_yaml fs name ts (badName ts name) = some content ∧
      handle_corrupt_yaml fs name ts name = some placeholderLines ∧
      decodeDocLines placeholderLines = some [] ∧
      get_values_from_yaml fs name title = ([], fs) := by
  intro fs name ts title content hc hd
  refine ⟨?_, ?_, ?_, rfl, ?_⟩
  · simp only [get_titles_from_yaml, hc, hd]
  · simp only [handle_corrupt_yaml, fsWrite, fsMove]
    rw [if_neg (badName_ne ts name), if_pos trivial]
    exact hc
  · simp only [handle_corrupt_yaml, fsWrite]
    rw [if_pos trivial]
  · simp only [get_values_from_yaml, hc, hd]

/-- Witness for `C4_corrupt_recovery` on a concrete unparsable file. -/
theorem C4_corrupt_recovery_witness :
    get_titles_from_yaml (fun q => if q = "f.yaml" then some ["???"] else none)
        "f.yaml" "20240101"
      = ([""], handle_corrupt_yaml
          (fun q => if q = "f.yaml" then some ["???"] else none) "f.yaml" "20240101") ∧
    handle_corrupt_yaml (fun q => if q = "f.yaml" then some ["???"] else none)
        "f.yaml" "20240101" (badName "20240101" "f.yaml") = some ["???"] ∧
    handle_corrupt_yaml (fun q => if q = "f.yaml" then some ["???"] else none)
        "f.yaml" "20240101" "f.yaml" = some placeholderLines ∧
    decodeDocLines placeholderLines = some [] ∧
    get_values_from_yaml (fun q => if q = "f.yaml" then some ["???"] else none)
        "f.yaml" "t"
      = ([], fun q => if q = "f.yaml" then some ["???"] else none) :=
  C4_corrupt_recovery (fun q => if q = "f.yaml" then some ["???"] else none)
    "f.yaml" "20240101" "t" ["???"] (by decide) (by decide)

/-- Counterexample to the claim `C4` as stated: the corrupt-file titles read
returns `[""]`, which is not the empty title list the claim requires (an
empty document yields `[]`), and a values read of the same corrupt file
leaves no quarantine file behind. -/
theorem C4_corrupt_recovery_counterexample :
    (get_titles_from_yaml (fun q => if q = "f.yaml" then some ["???"] else none)
        "f.yaml" "20240101").1 = [""] ∧
    ([""] : List String) ≠ [] ∧
    (get_values_from_yaml (fun q => if q = "f.yaml" then some ["???"] else none)
        "f.yaml" "t").2 (badName "20240101" "f.yaml") = none :=
  ⟨rfl, by decide, rfl⟩

/-! Round-trip lemmas for the order-preserving codec. -/

theorem dropPre_append : ∀ (ps cs : List Char), dropPre ps (ps ++ cs) = some cs := by
  intro ps
  induction ps with
  | nil => intro cs; rfl
  | cons p ps ih =>
      intro cs
      simp only [List.cons_append, dropPre, if_pos rfl]
      exact ih cs

theorem string_mk_data (s : String) : String.mk s.data = s := by
  cases s
  rfl

theorem takeWhile_all_append {p : Char → Bool} {x : Char} :
    ∀ (cs rest : List Char), (∀ c ∈ cs, p c = true) → p x = false →
      (cs ++ x :: rest).takeWhile p = cs := by
  intro cs
  induction cs with
  | nil =>
      intro rest _ hx
      simp [List.takeWhile_cons, hx]
  | cons c cs ih =>
      intro rest hall hx
      have hc : p c = true := hall c (List.mem_cons_self _ _)
      simp only [List.cons_append, List.takeWhile_cons, hc]
      rw [ih rest (fun c2 h2 => hall c2 (List.mem_cons_of_mem _ h2)) hx]
      simp

theorem dropWhile_all_append {p : Char → Bool} {x : Char} :
    ∀ (cs rest : List Char), (∀ c ∈ cs, p c = true) → p x = false →
      (cs ++ x :: rest).dropWhile p = x :: rest := by
  intro cs
  induction cs with
  | nil =>
      intro rest _ hx
      simp [List.dropWhile_cons, hx]
  | cons c cs ih =>
      intro rest hall hx
      have hc : p c = true := hall c (List.mem_cons_self _ _)
      simp only [List.cons_append, List.dropWhile_cons, hc]
      exact ih rest (fun c2 h2 => hall c2 (List.mem_cons_of_mem _ h2)) hx

theorem plainScalar_parts {t : String} (h : plainScalar t = true) :
    t.data ≠ [] ∧ (∀ c ∈ t.data, identChar c = true) ∧
      (∃ c cs, t.data = c :: cs ∧ (c.isAlpha || c = '_') = true) := by
  unfold plainScalar at h
  rcases ht : t.data with _ | ⟨c, cs⟩
  · rw [ht] at h
    cases h
  · rw [ht] at h
    simp only [Bool.and_eq_true] at h
    obtain ⟨⟨hhead, hall⟩, _⟩ := h
    refine ⟨by simp, ?_, c, cs, rfl, hhead⟩
    intro c2 hc2
    exact List.all_eq_true.mp hall c2 hc2

theorem identChar_colon : identChar ':' = false := rfl

theorem span_ident_colon {cs : List Char} (h : ∀ c ∈ cs, identChar c = true) :
    (cs ++ [':']).span identChar = (cs, [':']) := by
  rw [List.span_eq_take_drop, takeWhile_all_append cs [] h identChar_colon,
    dropWhile_all_append cs [] h identChar_colon]

theorem parseTitleLine_encode {t : String} (h : plainScalar t = true) :
    parseTitleLine (t ++ ":") = some t := by
  obtain ⟨hne, hall, _, _, _, _⟩ := plainScalar_parts h
  unfold parseTitleLine
  have hdap : (t ++ ":").data = t.data ++ [':'] := by
    rw [String.data_append]
  rw [hdap, span_ident_colon hall]
  rw [if_pos (by simp [hne])]

theorem parseKeyLine_encode {k : String} (h : plainScalar k = true) :
    parseKeyLine ("    " ++ k ++ ":") = some k := by
  obtain ⟨hne, hall, _, _, _, _⟩ := plainScalar_parts h
  unfold parseKeyLine
  have hdap : ("    " ++ k ++ ":").data = ("    " : String).data ++ (k.data ++ [':']) := by
    rw [String.data_append, String.data_append, List.append_assoc]
  rw [hdap, dropPre_append]
  simp only [span_ident_colon hall]
  rw [if_pos (by simp [hne])]

theorem parseKeyLine_title {t : String} (h : plainScalar t = true) :
    parseKeyLine (t ++ ":") = none := by
  obtain ⟨_, _, c, cs, hdata, hhead⟩ := plainScalar_parts h
  unfold parseKeyLine
  have hdap : (t ++ ":").data = c :: (cs ++ [':']) := by
    rw [String.data_append, hdata]
    rfl
  rw [hdap]
  have hcsp : c ≠ ' ' := by
    simp only [Bool.or_eq_true] at hhead
    rcases hhead with h1 | h1
    · intro he
      rw [he] at h1
      cases h1
    · intro he
      rw [decide_eq_true_eq.mp h1] at he
      cases he
  simp only [dropPre]
  rw [if_neg (fun he => hcsp he)]

theorem parseTypeLine_encode {t : String} (h : plainScalar t = true) :
    parseTypeLine ("      type: " ++ t) = some t := by
  obtain ⟨hne, _, c, cs, hdata, _⟩ := plainScalar_parts h
  unfold parseTypeLine
  rw [String.data_append, dropPre_append]
  simp only [hdata]
  rw [← hdata]

theorem parseValueLine_encode {v : String} (h : plainScalar v = true) :
    parseValueLine ("      value: " ++ v) = some v := by
  obtain ⟨hne, _, c, cs, hdata, _⟩ := plainScalar_parts h
  unfold parseValueLine
  rw [String.data_append, dropPre_append]
  simp only [hdata]
  rw [← hdata]

theorem wfField_parts {k : String} {fd : Option FieldData} (h : wfField (k, fd) = true) :
    ∃ t v, fd = some ⟨some t, some v⟩ ∧ plainScalar k = true ∧
      plainScalar t = true ∧ plainScalar v = true := by
  rcases fd with _ | f
  · cases h
  · rcases f with ⟨tOpt, vOpt⟩
    rcases tOpt with _ | t
    · cases h
    · rcases vOpt with _ | v
      · cases h
      · simp only [wfField, Bool.and_eq_true] at h
        obtain ⟨⟨h1, h2⟩, h3⟩ := h
        exact ⟨t, v, rfl, h1, h2, h3⟩

theorem parseFieldBlocks_stop {rest : List String}
    (hstop : ∀ l r2, rest = l :: r2 → parseKeyLine l = none) :
    parseFieldBlocks rest = some ([], rest) := by
  rcases rest with _ | ⟨l1, _ | ⟨l2, _ | ⟨l3, r3⟩⟩⟩
  · rfl
  · have h1 := hstop l1 [] rfl
    simp [parseFieldBlocks, h1]
  · have h1 := hstop l1 [l2] rfl
    simp [parseFieldBlocks, h1]
  · have h1 := hstop l1 (l2 :: l3 :: r3) rfl
    simp [parseFieldBlocks, h1]

theorem parseFieldBlocks_encode :
    ∀ (p : Panel) (rest : List String),
      p.all wfField = true →
      (∀ l r2, rest = l :: r2 → parseKeyLine l = none) →
      parseFieldBlocks ((p.map encodeFieldLines).flatten ++ rest) = some (p, rest) := by
  intro p
  induction p with
  | nil =>
      intro rest _ hstop
      simp only [List.map_nil, List.flatten_nil, List.nil_append]
      exact parseFieldBlocks_stop hstop
  | cons kf p ih =>
      intro rest hall hstop
      obtain ⟨k, fd⟩ := kf
      simp only [List.all_cons, Bool.and_eq_true] at hall
      obtain ⟨hwf, htail⟩ := hall
      obtain ⟨t, v, hfd, hpk, hpt, hpv⟩ := wfField_parts hwf
      subst hfd
      have henc : encodeFieldLines (k, some ⟨some t, some v⟩) =
          ["    " ++ k ++ ":", "      type: " ++ t, "      value: " ++ v] := rfl
      simp only [List.map_cons, List.flatten_cons, henc, List.cons_append, List.append_assoc,
        List.nil_append]
      simp only [parseFieldBlocks, parseKeyLine_encode hpk, parseTypeLine_encode hpt,
        parseValueLine_encode hpv, ih rest htail hstop]

theorem encode_stop {d : Document} (h : wfDoc d = true) :
    ∀ l r2, encodeDocLines d = l :: r2 → parseKeyLine l = none := by
  intro l r2 he
  rcases d with _ | ⟨⟨t, pv⟩, d'⟩
  · cases he
  · simp only [wfDoc, List.all_cons, Bool.and_eq_true] at h
    obtain ⟨hw, _⟩ := h
    rcases pv with _ | vo
    · cases hw
    · rcases vo with _ | p
      · cases hw
      · simp only [wfPreset, Bool.and_eq_true] at hw
        obtain ⟨⟨hpt, _⟩, _⟩ := hw
        simp only [encodeDocLines, List.map_cons, List.flatten_cons, encodePresetLines,
          List.cons_append] at he
        injection he with h1 _
        rw [← h1]
        exact parseKeyLine_title hpt

theorem parseTitleBlocks_encode :
    ∀ (d : Document) (fuel : Nat), wfDoc d = true → d.length ≤ fuel →
      parseTitleBlocks fuel (encodeDocLines d) = some d := by
  intro d
  induction d with
  | nil =>
      intro fuel _ _
      cases fuel <;> rfl
  | cons tp d' ih =>
      intro fuel hwf hlen
      obtain ⟨t, pv⟩ := tp
      simp only [wfDoc, List.all_cons, Bool.and_eq_true] at hwf
      obtain ⟨hw, hwd'⟩ := hwf
      rcases pv with _ | vo
      · cases hw
      · rcases vo with _ | p
        · cases hw
        · simp only [wfPreset, Bool.and_eq_true] at hw
          obtain ⟨⟨hpt, hpne⟩, hpall⟩ := hw
          rcases fuel with _ | fuel'
          · simp only [List.length_cons] at hlen
            omega
          · have hwd2 : wfDoc d' = true := hwd'
            have hfb := parseFieldBlocks_encode p (encodeDocLines d') hpall (encode_stop hwd2)
            have hne2 : p ≠ [] := of_decide_eq_true hpne
            have hlen' : d'.length ≤ fuel' := by
              simp only [List.length_cons] at hlen
              omega
            have hlines : encodeDocLines ((t, PresetVal.node (some p)) :: d')
                = (t ++ ":") :: "  values:" ::
                  ((p.map encodeFieldLines).flatten ++ encodeDocLines d') := by
              simp [encodeDocLines, encodePresetLines]
            rw [hlines]
            simp [parseTitleBlocks, parseTitleLine_encode hpt, hfb, hne2,
              ih fuel' hwd2 hlen']

theorem keptLine_head {s : String} {c : Char} {cs : List Char}
    (h : s.data = c :: cs) (hc : c ≠ '#') : keptLine s = true := by
  simp only [keptLine, h]
  exact decide_eq_true hc

theorem keptLine_title {t : String} (h : plainScalar t = true) :
    keptLine (t ++ ":") = true := by
  obtain ⟨_, _, c, cs, hdata, hhead⟩ := plainScalar_parts h
  have hd : (t ++ ":").data = c :: (cs ++ [':']) := by
    rw [String.data_append, hdata]
    rfl
  refine keptLine_head hd ?_
  simp only [Bool.or_eq_true] at hhead
  rcases hhead with h1 | h1
  · intro he
    rw [he] at h1
    cases h1
  · intro he
    rw [decide_eq_true_eq.mp h1] at he
    cases he

theorem keptLine_space (pre s : String) {c : Char} {cs : List Char}
    (hpre : pre.data = c :: cs) (hc : c ≠ '#') : keptLine (pre ++ s) = true := by
  have hd : (pre ++ s).data = c :: (cs ++ s.data) := by
    rw [String.data_append, hpre]
    rfl
  exact keptLine_head hd hc

theorem keptLine_encode {d : Document} (h : wfDoc d = true) :
    ∀ l ∈ encodeDocLines d, keptLine l = true := by
  induction d with
  | nil => intro l hl; cases hl
  | cons tp d' ih =>
      intro l hl
      obtain ⟨t, pv⟩ := tp
      simp only [wfDoc, List.all_cons, Bool.and_eq_true] at h
      obtain ⟨hw, hwd'⟩ := h
      rcases pv with _ | vo
      · cases hw
      · rcases vo with _ | p
        · cases hw
        · simp only [wfPreset, Bool.and_eq_true] at hw
          obtain ⟨⟨hpt, _⟩, hpall⟩ := hw
          simp only [encodeDocLines, List.map_cons, List.flatten_cons, encodePresetLines,
            List.cons_append, List.mem_cons, List.mem_append] at hl
          rcases hl with hl | hl | hl | hl
          · rw [hl]
            exact keptLine_title hpt
          · rw [hl]
            decide
          · rcases List.mem_flatten.mp hl with ⟨blk, hblk, hlblk⟩
            rcases List.mem_map.mp hblk with ⟨kf, hkf, hbe⟩
            have hwfkf : wfField kf = true := List.all_eq_true.mp hpall kf hkf
            obtain ⟨k2, fd2⟩ := kf
            obtain ⟨t2, v2, hfd2, _, _, _⟩ := wfField_parts hwfkf
            subst hfd2
            rw [← hbe] at hlblk
            simp only [encodeFieldLines, List.mem_cons, List.mem_singleton] at hlblk
            rcases hlblk with he | he | he | he
            · rw [he]
              have h4 : ("    " : String).data = ' ' :: [' ', ' ', ' '] := rfl
              have := keptLine_space "    " (k2 ++ ":") h4 (by decide)
              rw [← String.append_assoc] at this
              exact this
            · rw [he]
              exact keptLine_space "      type: " t2 rfl (by decide)
            · rw [he]
              exact keptLine_space "      value: " v2 rfl (by decide)
            · cases he
          · have hmem : l ∈ encodeDocLines d' := hl
            exact ih hwd' l hmem

theorem encode_length : ∀ d : Document, d.length ≤ (encodeDocLines d).length := by
  intro d
  induction d with
  | nil => simp [encodeDocLines]
  | cons tp d' ih =>
      have h1 : 1 ≤ (encodePresetLines tp).length := by
        rcases tp with ⟨t, pv⟩
        rcases pv with _ | vo
        · simp [encodePresetLines]
        · rcases vo with _ | p
          · simp [encodePresetLines]
          · simp [encodePresetLines]
      have h2 : encodeDocLines (tp :: d') = encodePresetLines tp ++ encodeDocLines d' := by
        simp [encodeDocLines]
      rw [h2, List.length_append, List.length_cons]
      omega

/-- The claim `C8`, amended: the FlexPreset codec (order-preserving dumper,
`sort_keys=False`) round-trips documents exactly, preset, panel and field
order and all values preserved (verified on the plain-scalar block subset
the dumper emits); the prompt-list codec (`sort_keys=True`) sorts keys at
dump time instead, so a document with unsorted titles does not round-trip
(see the counterexample). -/
theorem C8_codec_roundtrip :
    ∀ d : Document, wfDoc d = true → decodeDocLines (encodeDocLines d) = some d := by
  intro d h
  unfold decodeDocLines
  rw [List.filter_eq_self.mpr (keptLine_encode h)]
  refine parseTitleBlocks_encode d ((encodeDocLines d).length + 1) h ?_
  have := encode_length d
  omega

/-- Witness for `C8_codec_roundtrip` on a concrete document. -/
theorem C8_codec_roundtrip_witness :
    wfDoc [("alpha", PresetVal.node (some [("width", some ⟨some "int", some "five"⟩)]))]
      = true ∧
    decodeDocLines (encodeDocLines
        [("alpha", PresetVal.node (some [("width", some ⟨some "int", some "five"⟩)]))])
      = some [("alpha", PresetVal.node (some [("width", some ⟨some "int", some "five"⟩)]))] :=
  ⟨by decide, C8_codec_roundtrip _ (by decide)⟩

/-- Counterexample to the claim `C8` as stated: the prompt-list save dumps
with sorted keys, so encoding the two-title document `b, a` and decoding
the result yields the titles in order `a, b` - not the original document,
and the encoder did reorder top-level keys. -/
theorem C8_promptlist_sort_counterexample :
    decodePLLines (encodePLLines [("b", "y"), ("a", "x")]) = some [("a", "x"), ("b", "y")] ∧
    (some [("a", "x"), ("b", "y")] : Option PLDoc) ≠ some [("b", "y"), ("a", "x")] :=
  ⟨by decide, by decide⟩

/-! Lemmas for the validation-to-conversion safety claim. -/

theorem isPySpace_of_digit {c : Char} (h : c.isDigit = true) : isPySpace c = false := by
  cases hs : isPySpace c with
  | false => rfl
  | true =>
      exfalso
      simp only [isPySpace, Bool.or_eq_true, decide_eq_true_eq] at hs
      rcases hs with ((((h1 | h1) | h1) | h1) | h1) | h1 <;>
        (subst h1; exact absurd h (by decide))

theorem dropWhile_all_false {p : Char → Bool} :
    ∀ {cs : List Char}, (∀ c ∈ cs, p c = false) → cs.dropWhile p = cs := by
  intro cs h
  cases cs with
  | nil => rfl
  | cons c cs' =>
      rw [List.dropWhile_cons, if_neg]
      rw [h c (List.mem_cons_self _ _)]
      exact Bool.false_ne_true

theorem stripPyWs_eq {cs : List Char} (h : ∀ c ∈ cs, isPySpace c = false) :
    stripPyWs cs = cs := by
  unfold stripPyWs
  rw [dropWhile_all_false h,
    dropWhile_all_false (fun c hc => h c (List.mem_reverse.mp hc)), List.reverse_reverse]

theorem stripPyWs_newline {cs : List Char} (hne : cs ≠ [])
    (h : ∀ c ∈ cs, isPySpace c = false) :
    stripPyWs (cs ++ ['\n']) = cs := by
  unfold stripPyWs
  rcases cs with _ | ⟨c, cs'⟩
  · exact absurd rfl hne
  · have hc : isPySpace c = false := h c (List.mem_cons_self _ _)
    rw [List.cons_append, List.dropWhile_cons, if_neg (by rw [hc]; exact Bool.false_ne_true)]
    have hrev : ((c :: (cs' ++ ['\n'])) : List Char).reverse
        = '\n' :: (c :: cs').reverse := by
      rw [← List.cons_append, List.reverse_append]
      rfl
    rw [hrev, List.dropWhile_cons, if_pos (by decide),
      dropWhile_all_false (fun c2 hc2 => h c2 (List.mem_reverse.mp hc2)),
      List.reverse_reverse]

theorem duGo_digits : ∀ {cs : List Char}, (∀ c ∈ cs, c.isDigit = true) →
    ∀ a, ∃ n, duGo a cs = some n := by
  intro cs
  induction cs with
  | nil => intro _ a; exact ⟨a, rfl⟩
  | cons c cs' ih =>
      intro h a
      have hc : c.isDigit = true := h c (List.mem_cons_self _ _)
      rw [duGo.eq_def]
      simp only [hc, if_true]
      exact ih (fun c2 h2 => h c2 (List.mem_cons_of_mem _ h2)) _

theorem duParse_digits {cs : List Char} (hne : cs ≠ [])
    (h : ∀ c ∈ cs, c.isDigit = true) : ∃ n, duParse cs = some n := by
  rcases cs with _ | ⟨c, cs'⟩
  · exact absurd rfl hne
  · have hc : c.isDigit = true := h c (List.mem_cons_self _ _)
    rw [duParse.eq_def]
    simp only [hc, if_true]
    exact duGo_digits (fun c2 h2 => h c2 (List.mem_cons_of_mem _ h2)) _

theorem duScan_stop {acc cnt : Nat} {rest : List Char}
    (hrest : rest = [] ∨ ∃ r rs, rest = r :: rs ∧ r.isDigit = false ∧ r ≠ '_') :
    duScan acc cnt rest = some (acc, cnt, rest) := by
  rcases hrest with h | ⟨r, rs, hre, hrd, hru⟩
  · rw [h]
    rfl
  · rw [hre, duScan.eq_def]
    simp [hrd, hru]

theorem duScan_digits : ∀ (A rest : List Char) (acc cnt : Nat),
    (∀ c ∈ A, c.isDigit = true) →
    (rest = [] ∨ ∃ r rs, rest = r :: rs ∧ r.isDigit = false ∧ r ≠ '_') →
    ∃ v, duScan acc cnt (A ++ rest) = some (v, cnt + A.length, rest) := by
  intro A
  induction A with
  | nil =>
      intro rest acc cnt _ hrest
      refine ⟨acc, ?_⟩
      rw [List.nil_append, duScan_stop hrest]
      simp
  | cons a A' ih =>
      intro rest acc cnt hall hrest
      have ha : a.isDigit = true := hall a (List.mem_cons_self _ _)
      rcases ih rest (acc * 10 + digitVal a) (cnt + 1)
          (fun c hc => hall c (List.mem_cons_of_mem _ hc)) hrest with ⟨v, hv⟩
      refine ⟨v, ?_⟩
      rw [List.cons_append, duScan.eq_def]
      simp only [ha, if_true, hv, List.length_cons]
      have harith : cnt + 1 + A'.length = cnt + (A'.length + 1) := by omega
      rw [harith]

theorem matchIntCore_nonspace {cs : List Char} (h : matchIntCore cs = true) :
    ∀ c ∈ cs, isPySpace c = false := by
  rcases cs with _ | ⟨c0, rest⟩
  · intro c hc
    cases hc
  · simp only [matchIntCore.eq_def] at h
    by_cases hc0 : c0 = '-'
    · subst hc0
      rw [if_pos rfl] at h
      simp only [Bool.and_eq_true] at h
      obtain ⟨_, hall⟩ := h
      intro c hc
      rcases List.mem_cons.mp hc with rfl | hc
      · decide
      · exact isPySpace_of_digit (List.all_eq_true.mp hall c hc)
    · rw [if_neg hc0] at h
      intro c hc
      exact isPySpace_of_digit (List.all_eq_true.mp h c hc)

theorem pyInt_of_strip {s : String} {cs : List Char}
    (hstrip : stripPyWs s.data = cs) (h : matchIntCore cs = true) :
    (pyIntOfString s).isSome = true := by
  rcases cs with _ | ⟨c, cs'⟩
  · exact absurd h (by decide)
  · simp only [matchIntCore.eq_def] at h
    by_cases hc : c = '-'
    · subst hc
      rw [if_pos rfl] at h
      simp only [Bool.and_eq_true, decide_eq_true_eq] at h
      obtain ⟨hne, hall⟩ := h
      have heq : pyIntOfString s = (duParse cs').map (fun n => -(n : Int)) := by
        unfold pyIntOfString
        simp only [hstrip]
        simp
      obtain ⟨n, hn⟩ := duParse_digits hne (List.all_eq_true.mp hall)
      rw [heq, hn]
      rfl
    · rw [if_neg hc] at h
      have hcd : c.isDigit = true := List.all_eq_true.mp h c (List.mem_cons_self _ _)
      have hplus : ¬ c = '+' := by
        intro he
        rw [he] at hcd
        exact absurd hcd (by decide)
      have heq : pyIntOfString s = (duParse (c :: cs')).map (fun n => (n : Int)) := by
        unfold pyIntOfString
        simp only [hstrip]
        rw [if_neg hc, if_neg hplus]
      obtain ⟨n, hn⟩ := duParse_digits (by simp) (List.all_eq_true.mp h)
      rw [heq, hn]
      rfl

theorem reMatch_strip {core : List Char → Bool}
    (hns : ∀ cs, core cs = true → ∀ c ∈ cs, isPySpace c = false)
    (hne : ∀ cs, core cs = true → cs ≠ [])
    {s : String} (h : reMatchEnd core s = true) :
    ∃ cs, stripPyWs s.data = cs ∧ core cs = true := by
  simp only [reMatchEnd, Bool.or_eq_true] at h
  rcases h with h | h
  · exact ⟨s.data, stripPyWs_eq (hns _ h), h⟩
  · rcases hg : s.data.getLast? with _ | c
    · rw [hg] at h
      cases h
    · rw [hg] at h
      simp only [Bool.and_eq_true, decide_eq_true_eq] at h
      obtain ⟨hc, hcore⟩ := h
      subst hc
      have hdne : s.data ≠ [] := fun he => by rw [he] at hg; cases hg
      have hlast : s.data.getLast hdne = '\n' := by
        have hgl := List.getLast?_eq_getLast s.data hdne
        have h2 : some (s.data.getLast hdne) = some '\n' := by rw [← hgl, hg]
        injection h2
      have hsplit : s.data = s.data.dropLast ++ ['\n'] := by
        have h3 := List.dropLast_append_getLast hdne
        rw [hlast] at h3
        exact h3.symm
      refine ⟨s.data.dropLast, ?_, hcore⟩
      conv_lhs => rw [hsplit]
      exact stripPyWs_newline (hne _ hcore) (hns _ hcore)

theorem matchIntCore_ne {cs : List Char} (h : matchIntCore cs = true) : cs ≠ [] := by
  intro he
  rw [he] at h
  exact absurd h (by decide)

theorem matchIntCore_imp_float {cs : List Char} (h : matchIntCore cs = true) :
    matchFloatCore cs = true := by
  rcases cs with _ | ⟨c, rest⟩
  · exact absurd h (by decide)
  · simp only [matchIntCore.eq_def] at h
    simp only [matchFloatCore.eq_def]
    by_cases hc : c = '-'
    · rw [if_pos hc] at h ⊢
      simp only [Bool.and_eq_true, decide_eq_true_eq] at h
      obtain ⟨hne, hall⟩ := h
      have hdw : rest.dropWhile (·.isDigit) = [] :=
        List.dropWhile_eq_nil_iff.mpr
          (fun x hx => by simpa using List.all_eq_true.mp hall x hx)
      unfold matchFloatBody
      rw [hdw]
      simp [hne]
    · rw [if_neg hc] at h ⊢
      have hdw : (c :: rest).dropWhile (·.isDigit) = [] :=
        List.dropWhile_eq_nil_iff.mpr
          (fun x hx => by simpa using List.all_eq_true.mp h x hx)
      unfold matchFloatBody
      rw [hdw]
      simp

theorem dropWhile_head_false {p : Char → Bool} {l : List Char} {r : Char} {rs : List Char}
    (h : l.dropWhile p = r :: rs) : p r = false := by
  induction l with
  | nil => cases h
  | cons a l ih =>
      rw [List.dropWhile_cons] at h
      by_cases ha : p a = true
      · rw [if_pos ha] at h
        exact ih h
      · rw [if_neg ha] at h
        injection h with h1 _
        rw [← h1]
        exact Bool.eq_false_iff.mpr ha

theorem matchFloatBody_cases {cs : List Char} (h : matchFloatBody cs = true) :
    (cs ≠ [] ∧ ∀ c ∈ cs, c.isDigit = true) ∨
    (∃ A b, cs = A ++ '.' :: b ∧ (∀ c ∈ A, c.isDigit = true) ∧ b ≠ [] ∧
      (∀ c ∈ b, c.isDigit = true)) := by
  unfold matchFloatBody at h
  rcases hd : cs.dropWhile (·.isDigit) with _ | ⟨r, b⟩
  · rw [hd] at h
    left
    have hcseq : cs = cs.takeWhile (·.isDigit) := by
      conv_lhs => rw [← List.takeWhile_append_dropWhile (p := (·.isDigit)) (l := cs)]
      rw [hd, List.append_nil]
    refine ⟨by simpa using h, ?_⟩
    intro c hc
    rw [hcseq] at hc
    exact List.mem_takeWhile_imp hc
  · rw [hd] at h
    right
    simp only [Bool.and_eq_true, decide_eq_true_eq] at h
    obtain ⟨⟨hr, hbne⟩, hball⟩ := h
    refine ⟨cs.takeWhile (·.isDigit), b, ?_, ?_, hbne, List.all_eq_true.mp hball⟩
    · conv_lhs => rw [← List.takeWhile_append_dropWhile (p := (·.isDigit)) (l := cs)]
      rw [hd, hr]
    · intro c hc
      exact List.mem_takeWhile_imp hc

theorem matchFloatBody_nonspace {cs : List Char} (h : matchFloatBody cs = true) :
    ∀ c ∈ cs, isPySpace c = false := by
  rcases matchFloatBody_cases h with ⟨_, hall⟩ | ⟨A, b, hsplit, hA, _, hb⟩
  · intro c hc
    exact isPySpace_of_digit (hall c hc)
  · intro c hc
    rw [hsplit] at hc
    rcases List.mem_append.mp hc with hc | hc
    · exact isPySpace_of_digit (hA c hc)
    · rcases List.mem_cons.mp hc with rfl | hc
      · decide
      · exact isPySpace_of_digit (hb c hc)

theorem matchFloatCore_ne {cs : List Char} (h : matchFloatCore cs = true) : cs ≠ [] := by
  intro he
  rw [he] at h
  exact absurd h (by decide)

theorem matchFloatCore_nonspace {cs : List Char} (h : matchFloatCore cs = true) :
    ∀ c ∈ cs, isPySpace c = false := by
  rcases cs with _ | ⟨c0, rest⟩
  · intro c hc
    cases hc
  · simp only [matchFloatCore.eq_def] at h
    by_cases hc0 : c0 = '-'
    · subst hc0
      rw [if_pos rfl] at h
      intro c hc
      rcases List.mem_cons.mp hc with rfl | hc
      · decide
      · exact matchFloatBody_nonspace h c hc
    · rw [if_neg hc0] at h
      exact matchFloatBody_nonspace h

theorem pyFloatNumeric_isSome {cs : List Char} (h : matchFloatBody cs = true) :
    ∃ q, pyFloatNumeric cs = some q := by
  rcases matchFloatBody_cases h with ⟨hne, hall⟩ | ⟨A, b, hsplit, hA, hbne, hball⟩
  · obtain ⟨v, hv⟩ := duScan_digits cs [] 0 0 hall (Or.inl rfl)
    rw [List.append_nil] at hv
    have hlen : cs.length ≠ 0 := fun h0 => hne (List.length_eq_zero.mp h0)
    unfold pyFloatNumeric
    simp only [hv]
    rw [if_neg (by omega)]
    exact ⟨_, rfl⟩
  · subst hsplit
    obtain ⟨v, hv⟩ := duScan_digits A ('.' :: b) 0 0 hA
      (Or.inr ⟨'.', b, rfl, by decide, by decide⟩)
    obtain ⟨v2, hv2⟩ := duScan_digits b [] 0 0 hball (Or.inl rfl)
    rw [List.append_nil] at hv2
    have hblen : b.length ≠ 0 := fun h0 => hbne (List.length_eq_zero.mp h0)
    unfold pyFloatNumeric
    simp only [hv, hv2]
    rw [if_neg ?_]
    · exact ⟨_, rfl⟩
    · simp only [Bool.and_eq_true, decide_eq_true_eq]
      rintro ⟨_, h2⟩
      omega

theorem matchFloatBody_head {c : Char} {cs' : List Char}
    (h : matchFloatBody (c :: cs') = true) : c.isDigit = true ∨ c = '.' := by
  by_cases hc : c.isDigit = true
  · exact Or.inl hc
  · right
    unfold matchFloatBody at h
    rw [List.dropWhile_cons, if_neg (by rw [Bool.eq_false_iff.mpr hc]; exact Bool.false_ne_true)]
      at h
    simp only [Bool.and_eq_true, decide_eq_true_eq] at h
    exact h.1.1

theorem pyFloat_of_strip {s : String} {cs : List Char}
    (hstrip : stripPyWs s.data = cs) (h : matchFloatCore cs = true) :
    (pyFloatOfString s).isSome = true := by
  rcases cs with _ | ⟨c, cs'⟩
  · exact absurd h (by decide)
  · simp only [matchFloatCore.eq_def] at h
    by_cases hc : c = '-'
    · subst hc
      rw [if_pos rfl] at h
      obtain ⟨q, hq⟩ := pyFloatNumeric_isSome h
      have hbody : pyFloatBody cs' = some (.finite q) := by
        unfold pyFloatBody
        rw [hq]
      have heq : pyFloatOfString s = (pyFloatBody cs').map PyFloat.neg := by
        unfold pyFloatOfString
        simp only [hstrip]
        simp
      rw [heq, hbody]
      rfl
    · rw [if_neg hc] at h
      have hhead := matchFloatBody_head h
      have hplus : ¬ c = '+' := by
        rcases hhead with hd | hdot
        · intro he
          rw [he] at hd
          exact absurd hd (by decide)
        · intro he
          rw [he] at hdot
          exact absurd hdot (by decide)
      obtain ⟨q, hq⟩ := pyFloatNumeric_isSome h
      have heq : pyFloatOfString s = pyFloatBody (c :: cs') := by
        unfold pyFloatOfString
        simp only [hstrip]
        rw [if_neg hc, if_neg hplus]
      rw [heq]
      unfold pyFloatBody
      rw [hq]
      rfl

/-- The claim `C9`: a value matched by the int validation regex always
converts with Python `int`, is also matched by the float validation regex,
a value matched by the float regex always converts with Python `float`,
and hence a stored value that passed `_validate_value_type` for its declared
numeric type can never make the conversion step of `run` fail. -/
theorem C9_validation_conversion :
    (∀ s, reMatchEnd matchIntCore s = true → (pyIntOfString s).isSome = true) ∧
    (∀ s, reMatchEnd matchIntCore s = true → reMatchEnd matchFloatCore s = true) ∧
    (∀ s, reMatchEnd matchFloatCore s = true → (pyFloatOfString s).isSome = true) ∧
    (∀ t v, (t = "int" ∨ t = "float") → validate_value_type t v = true →
        (convertValue t v).isSome = true) := by
  have hint : ∀ s, reMatchEnd matchIntCore s = true → (pyIntOfString s).isSome = true := by
    intro s h
    obtain ⟨cs, hstrip, hcore⟩ :=
      reMatch_strip (fun _ h2 => matchIntCore_nonspace h2) (fun _ h2 => matchIntCore_ne h2) h
    exact pyInt_of_strip hstrip hcore
  have hfloat : ∀ s, reMatchEnd matchFloatCore s = true →
      (pyFloatOfString s).isSome = true := by
    intro s h
    obtain ⟨cs, hstrip, hcore⟩ :=
      reMatch_strip (fun _ h2 => matchFloatCore_nonspace h2)
        (fun _ h2 => matchFloatCore_ne h2) h
    exact pyFloat_of_strip hstrip hcore
  have himp : ∀ s, reMatchEnd matchIntCore s = true →
      reMatchEnd matchFloatCore s = true := by
    intro s h
    simp only [reMatchEnd, Bool.or_eq_true] at h ⊢
    rcases h with h | h
    · exact Or.inl (matchIntCore_imp_float h)
    · right
      rcases hg : s.data.getLast? with _ | c
      · rw [hg] at h
        simp at h
      · rw [hg] at h
        simp only [Bool.and_eq_true, decide_eq_true_eq] at h ⊢
        exact ⟨h.1, matchIntCore_imp_float h.2⟩
  refine ⟨hint, himp, hfloat, ?_⟩
  intro t v ht hv
  rcases ht with rfl | rfl
  · have hre : reMatchEnd matchIntCore v = true := by
      simpa [validate_value_type] using hv
    have := hint v hre
    simp only [convertValue, if_pos rfl]
    rcases hs : pyIntOfString v with _ | n
    · rw [hs] at this
      cases this
    · rfl
  · have hre : reMatchEnd matchFloatCore v = true := by
      simpa [validate_value_type] using hv
    have := hfloat v hre
    simp only [convertValue]
    rw [if_pos trivial]
    rcases hs : pyFloatOfString v with _ | q
    · rw [hs] at this
      cases this
    · rfl

/-- Witness for `C9_validation_conversion` at concrete validated values. -/
theorem C9_validation_conversion_witness :
    (pyIntOfString "-42").isSome = true ∧
    reMatchEnd matchFloatCore "-42" = true ∧
    (pyFloatOfString "3.5").isSome = true ∧
    (convertValue "float" ".25").isSome = true :=
  ⟨C9_validation_conversion.1 "-42" (by decide),
   C9_validation_conversion.2.1 "-42" (by decide),
   C9_validation_conversion.2.2.1 "3.5" (by decide),
   C9_validation_conversion.2.2.2 "float" ".25" (Or.inr rfl) (by decide)⟩

/-- The claim `C10`, amended: `NS_PromptList.run` returns its prompt
argument unchanged as the single result, and exceptions raised while
persisting are caught - except on one path: when the try body raises
`RuntimeError`, the `except RuntimeError` handler itself runs the fallback
save, and an exception raised there is not caught by the sibling handler
and propagates to the caller. -/
theorem C10_promptlist_run :
    ∀ sy sel title prompt a1 a2,
      NS_PromptList.run sy sel title prompt a1 a2 = .ok prompt ∨
      (a1 = some .runtimeError ∧ ∃ e, a2 = some e ∧
        NS_PromptList.run sy sel title prompt a1 a2 = .error e) := by
  intro sy sel title prompt a1 a2
  unfold NS_PromptList.run
  by_cases hg : (title ≠ "" && prompt ≠ "") = true
  · rw [if_pos hg]
    rcases a1 with _ | e1
    · exact Or.inl rfl
    · rcases e1 with _ | _
      · rcases a2 with _ | e2
        · exact Or.inl rfl
        · exact Or.inr ⟨rfl, e2, rfl, rfl⟩
      · exact Or.inl rfl
  · rw [if_neg hg]
    exact Or.inl rfl

/-- Counterexample to the claim `C10` as stated: when the try body raises
`RuntimeError` (for example a recursion error during the YAML load, which is
a `RuntimeError` subclass) and the fallback save then fails, the failure
propagates out of `run` instead of being caught. -/
theorem C10_propagation_counterexample :
    NS_PromptList.run "d.yaml" "" "t" "p" (some .runtimeError) (some .otherError)
      = .error .otherError ∧
    (Except.error ExcClass.otherError : Except ExcClass String) ≠ .ok "p" :=
  ⟨rfl, fun h => Except.noConfusion h⟩

end NSUtil
